import Mathlib

/-!
# Ikeda delay-based reservoir computing

A shallow embedding of `reservoirs.h` and of `integrate_dde_reservoir` from
`delay_based_RC.cpp`.

Modelling conventions.

* The definitions are generic in the arithmetic: a type `F` of floating values with the
  operations of the class `float_arith` and no laws assumed.  `sin` and `sqrt` come from the C++
  standard library and are parameters of the definitions that call them.  Two arithmetics are
  given: `ieee_value`, where every `float` operation rounds to binary32 and a product of
  `double`s rounds to binary64, and the exact arithmetic of a linearly ordered field.
* In `ieee_value` a value is the rational number it denotes.  Infinities, NaN and the sign of zero
  are not represented; statements that depend on a converted or rounded value carry the range
  in which binary32 agrees.  Each operation is rounded on its own (no fused multiply-add, no
  excess precision), and a `double` literal assigned to a `float` is rounded once.
* The conversion `int(x)` is undefined in C++ outside the range of a 32-bit `int`; `cpp_int`
  returns there what the x86 conversion returns, the smallest `int`.
* The process-wide noise generator (`gen` together with the `normal_distribution` object
  `noise`) is the stream of samples it is going to return: `gen 0` is the next sample and drawing a
  sample shifts the stream by one.
* Mutable objects are passed and returned explicitly.
* An access outside a `std::vector` or outside an Armadillo vector memory block is undefined in
  C++; the embedding returns `none` there.
-/

namespace IkedaRC

/-- The noise stream: `gen 0` is the next value returned by `noise(gen)`. -/
abbrev noise_gen (F : Type) : Type := Nat → F

/-- A draw `noise(gen)`: the sample and the generator afterwards. -/
def noise {F : Type} (gen : noise_gen F) : F × noise_gen F :=
  (gen 0, fun i => gen (i + 1))

/-- The integer part of `x`: truncation toward zero. -/
def trunc {K : Type} [LinearOrderedField K] [FloorRing K] (x : K) : Int :=
  if 0 ≤ x then Int.floor x else Int.ceil x

/-- The conversion `int(x)` of a floating value to a 32-bit `int`: truncation toward zero when
the integer part lies in `[-2^31, 2^31)`, and the smallest `int` otherwise (where the C++
conversion is undefined). -/
def cpp_int {K : Type} [LinearOrderedField K] [FloorRing K] (x : K) : Int :=
  if -2 ^ 31 - 1 < x ∧ x < 2 ^ 31 then trunc x else -2 ^ 31

/-- Rounding of a rational to the nearest integer, ties to the even one. -/
def rne (x : ℚ) : Int :=
  if x - Int.floor x < 1 / 2 then Int.floor x
  else if 1 / 2 < x - Int.floor x then Int.floor x + 1
  else if Int.floor x % 2 = 0 then Int.floor x
  else Int.floor x + 1

/-- The exponent of the last place of the binary floating-point format with `prec` significant
bits and least exponent `emin`, at the magnitude of `x`. -/
def last_place (prec : Nat) (emin : Int) (x : ℚ) : Int :=
  max (Int.log 2 |x| - ((prec : Int) - 1)) emin

/-- Rounding to the nearest value of the binary floating-point format with `prec` significant bits
and least exponent `emin` (ties to even, gradual underflow, no overflow). -/
def fp_round (prec : Nat) (emin : Int) (x : ℚ) : ℚ :=
  if x = 0 then 0
  else (rne (x / 2 ^ last_place prec emin x) : ℚ) * 2 ^ last_place prec emin x

/-- Rounding to binary32, the C++ `float`. -/
def f32_round (x : ℚ) : ℚ := fp_round 24 (-149) x

/-- Rounding to binary64, the C++ `double`. -/
def f64_round (x : ℚ) : ℚ := fp_round 53 (-1074) x

/-- The arithmetic the program uses on its floating values. -/
class float_arith (F : Type) extends Add F, Mul F, Neg F, Div F, One F where
  /-- A decimal literal as a `float`. -/
  lit : ℚ → F
  /-- The conversion `int(x)` of a `float`. -/
  to_int : F → Int
  /-- The product of two `double`s. -/
  double_mul : F → F → F
  /-- The conversion of a `double` to `float`. -/
  to_float : F → F

/-- A binary floating-point value, given by the rational number it denotes. -/
structure ieee_value where
  val : ℚ
deriving DecidableEq

/-- The arithmetic of the program: `float` operations round to binary32, the product of two
`double`s rounds to binary64. -/
instance ieee_arith : float_arith ieee_value where
  add a b := ⟨f32_round (a.val + b.val)⟩
  mul a b := ⟨f32_round (a.val * b.val)⟩
  neg a := ⟨-a.val⟩
  div a b := ⟨f32_round (a.val / b.val)⟩
  one := ⟨1⟩
  lit q := ⟨f32_round q⟩
  to_int a := cpp_int a.val
  double_mul a b := ⟨f64_round (a.val * b.val)⟩
  to_float a := ⟨f32_round a.val⟩

/-- Exact arithmetic in a linearly ordered field. -/
instance exact_arith {F : Type} [LinearOrderedField F] [FloorRing F] : float_arith F where
  toAdd := inferInstance
  toMul := inferInstance
  toNeg := inferInstance
  toDiv := inferInstance
  toOne := inferInstance
  lit q := (q : F)
  to_int := cpp_int
  double_mul a b := a * b
  to_float a := a

/-- The data members of `struct dde_reservoir<T>` for a real-valued `T`. -/
structure dde_reservoir (F : Type) where
  delay : F
  num_nodes : Int
  theta : F
  integ_step : F
  noise_amp : F
  name : String
  z_t : F
  z_tau : List F

/-- The data members of `struct Ikeda : dde_reservoir<float>`. -/
structure Ikeda (F : Type) extends dde_reservoir F where
  beta : F
  gamma : F
  epsilon : F
  phi : F

/-- The virtual member functions used by the integrator, resolved on the dynamic type of the
object; each receives the current base-class part of the object. -/
structure vtable (F : Type) where
  readout : dde_reservoir F → F
  dde_equation : dde_reservoir F → F → F → F → F

/-- A `std::map<string, float>`: `find(k) != end()` is `(params.lookup k).isSome` and
`params[k]` on a present key is the value found. -/
abbrev param_map (F : Type) : Type := List (String × F)

section model

open float_arith

variable {F : Type} [float_arith F]

/-- The default member initialisers of `dde_reservoir`; `z_t` has no initialiser in the source
and is taken as an argument. -/
def dde_reservoir.default (z_t : F) : dde_reservoir F :=
  { delay := lit 80, num_nodes := 50, theta := lit 1.4, integ_step := lit 0.01,
    noise_amp := lit 1e-3, name := "dde_reservoir", z_t := z_t, z_tau := [] }

/-- The virtual functions of the base class: `readout` returns `0.0` and `dde_equation`
returns `-z_t`. -/
def dde_reservoir.base_vtable : vtable F :=
  { readout := fun _ => lit 0, dde_equation := fun _ z_t _ _ => -z_t }

/-- The constructor `Ikeda()`. -/
def Ikeda.new (z_t : F) : Ikeda F :=
  { dde_reservoir.default z_t with
    name := "ikeda", beta := lit 1.6, gamma := lit 0.9, epsilon := lit 1, phi := lit 0.2 }

/-- The function `dde_reservoir::set_rc_parameters`. -/
def dde_reservoir.set_rc_parameters (RC : dde_reservoir F) (params : param_map F) :
    dde_reservoir F :=
  let RC := match params.lookup "delay" with
    | some v => { RC with delay := v }
    | none => RC
  let RC := match params.lookup "num_nodes" with
    | some v => { RC with num_nodes := to_int v }
    | none => RC
  let RC := match params.lookup "theta" with
    | some v => { RC with theta := v }
    | none => RC
  let RC := match params.lookup "integ_step" with
    | some v => { RC with integ_step := v }
    | none => RC
  match params.lookup "noise_amp" with
    | some v => { RC with noise_amp := v }
    | none => RC

/-- The function `Ikeda::set_parameters`. -/
def Ikeda.set_parameters (self : Ikeda F) (params : param_map F) : Ikeda F :=
  let self := match params.lookup "beta" with
    | some v => { self with beta := v }
    | none => self
  let self := match params.lookup "gamma" with
    | some v => { self with gamma := v }
    | none => self
  let self := match params.lookup "epsilon" with
    | some v => { self with epsilon := v }
    | none => self
  let self := match params.lookup "phi" with
    | some v => { self with phi := v }
    | none => self
  { self with todde_reservoir := self.todde_reservoir.set_rc_parameters params }

/-- The noisy initialisation `dde_reservoir::init_delay(T x_0)`: entry `i` of the delay line is
`x_0 + noise_amp * noise(gen)`, the samples being drawn in index order. -/
def dde_reservoir.init_delay (RC : dde_reservoir F) (gen : noise_gen F) (x_0 : F) :
    dde_reservoir F × noise_gen F :=
  let steps_per_delay := to_int (RC.delay / RC.integ_step)
  ({ RC with
      z_t := x_0,
      z_tau := (List.range steps_per_delay.toNat).map (fun i => x_0 + RC.noise_amp * gen i) },
   fun i => gen (steps_per_delay.toNat + i))

/-- The override `Ikeda::init_delay()`.  A negative `steps_per_delay` (which
makes the `std::vector` constructor throw) does not arise for positive `delay` and
`integ_step`; the embedding gives the empty line there. -/
def Ikeda.init_delay (self : Ikeda F) : Ikeda F :=
  let steps_per_delay := to_int (self.delay / self.integ_step)
  { self with z_t := lit 0.1, z_tau := List.replicate steps_per_delay.toNat (lit 0.1) }

/-- The member function `Ikeda::readout`. -/
def Ikeda.readout (self : Ikeda F) : F :=
  self.z_t

/-- The member function `Ikeda::dde_equation`; the parameters `z_t` and `z_tau` shadow the data
members of the same names. -/
def Ikeda.dde_equation (sin : F → F) (self : Ikeda F) (z_t z_tau u_t : F) : F :=
  let sin_term := sin (z_tau + self.gamma * u_t + self.phi)
  (-self.epsilon * z_t) + self.beta * sin_term * sin_term

/-- The virtual functions of an `Ikeda` object seen through a `dde_reservoir<float>*`. -/
def Ikeda.vtable (sin : F → F) (self : Ikeda F) : vtable F :=
  { readout := fun RC => Ikeda.readout { self with todde_reservoir := RC },
    dde_equation := fun RC => Ikeda.dde_equation sin { self with todde_reservoir := RC } }

/-- The function `dde_reservoir::euler_maruyama` for a real-valued state (the
`if constexpr` branch for complex states is not compiled).  Reading `z_tau[0]` of an empty
delay line is undefined and gives `none`. -/
def dde_reservoir.euler_maruyama (sqrt : F → F) (vt : vtable F) (RC : dde_reservoir F)
    (gen : noise_gen F) (u_t : F) : Option (dde_reservoir F × noise_gen F) :=
  match RC.z_tau[0]? with
  | none => none
  | some z_tau0 =>
    let dzdt := vt.dde_equation RC RC.z_t z_tau0 u_t
    let (real_noise, gen) := noise gen
    let noise_term := RC.noise_amp * real_noise
    let new_zk1 := RC.z_t + RC.integ_step * dzdt + noise_term * sqrt RC.integ_step
    some ({ RC with z_t := new_zk1, z_tau := (RC.z_tau ++ [new_zk1]).eraseIdx 0 }, gen)

/-- An Armadillo matrix as the list of its rows. -/
abbrev mat (F : Type) : Type := List (List F)

/-- The constructor `mat(n_rows, n_cols, fill::ones)`. -/
def mat.ones (n_rows n_cols : Nat) : mat F :=
  List.replicate n_rows (List.replicate n_cols 1)

/-- The assignment `states(k, n) = v` (an index outside the matrix leaves it as it is). -/
def mat.set (states : mat F) (k n : Nat) (v : F) : mat F :=
  match states[k]? with
  | none => states
  | some row => List.set states k (List.set row n v)

/-- The state threaded through the loops of `integrate_dde_reservoir`: the object behind
`RC`, the noise generator and the matrix `states`. -/
abbrev loop_state (F : Type) : Type := dde_reservoir F × noise_gen F × mat F

/-- The argument `m_ptr[n] * u_ptr[k]` of `euler_maruyama`: a product of two `double`s,
converted to the `float` parameter `u_t`. -/
def step_input (m u : F) : F :=
  to_float (double_mul m u)

/-- The innermost loop `for (int i = 0; i < steps_per_node; i++)`, `steps` iterations being
left.  Each iteration reads `m_ptr[n]` and `u_ptr[k]`. -/
def sub_steps (sqrt : F → F) (vt : vtable F) (u_t mask : List F) (k n : Nat) :
    Nat → dde_reservoir F → noise_gen F → Option (dde_reservoir F × noise_gen F)
  | 0, RC, gen => some (RC, gen)
  | steps + 1, RC, gen =>
    match mask[n]?, u_t[k]? with
    | some m, some u =>
      match RC.euler_maruyama sqrt vt gen (step_input m u) with
      | none => none
      | some (RC, gen) => sub_steps sqrt vt u_t mask k n steps RC gen
    | _, _ => none

/-- The loop `for (int n = 0; n < RC->num_nodes; n++)` from index `n` on, `todo` iterations
being left. -/
def node_loop (sqrt : F → F) (vt : vtable F) (u_t mask : List F) (steps_per_node : Nat)
    (k : Nat) : Nat → Nat → loop_state F → Option (loop_state F)
  | 0, _, st => some st
  | todo + 1, n, (RC, gen, states) =>
    match sub_steps sqrt vt u_t mask k n steps_per_node RC gen with
    | none => none
    | some (RC, gen) =>
      node_loop sqrt vt u_t mask steps_per_node k todo (n + 1)
        (RC, gen, mat.set states k n (vt.readout RC))

/-- The loop `for (int k = 0; k < len_time; k++)` from index `k` on, `todo` iterations being
left. -/
def time_loop (sqrt : F → F) (vt : vtable F) (u_t mask : List F) (steps_per_node : Nat)
    (num_nodes : Nat) : Nat → Nat → loop_state F → Option (loop_state F)
  | 0, _, st => some st
  | todo + 1, k, st =>
    match node_loop sqrt vt u_t mask steps_per_node k num_nodes 0 st with
    | none => none
    | some st => time_loop sqrt vt u_t mask steps_per_node num_nodes todo (k + 1) st

/-- The function `integrate_dde_reservoir`.  It returns the matrix together with the object
behind `RC` and the noise generator as the call leaves them.  The loop bounds are `int`s: a
negative `steps_per_node` or `num_nodes` gives no iteration.  For `num_nodes < -1` the column
count of the source is the conversion of a negative `int` to an unsigned size, which is not
modelled. -/
def integrate_dde_reservoir (sqrt : F → F) (vt : vtable F) (RC : dde_reservoir F)
    (gen : noise_gen F) (u_t mask : List F) : Option (mat F × dde_reservoir F × noise_gen F) :=
  let len_time := u_t.length
  let states : mat F := mat.ones len_time (RC.num_nodes + 1).toNat
  let steps_per_node := to_int (RC.theta / RC.integ_step)
  match time_loop sqrt vt u_t mask steps_per_node.toNat RC.num_nodes.toNat len_time 0
      (RC, gen, states) with
  | none => none
  | some (RC, gen, states) => some (states, RC, gen)

end model

end IkedaRC

namespace IkedaRC

section auxiliary

open float_arith

variable {F : Type} [float_arith F]

/-- The value `new_zk1` computed by `euler_maruyama` when the front of the delay line is `d`. -/
def next_z (sqrt : F → F) (vt : vtable F) (RC : dde_reservoir F) (gen : noise_gen F)
    (u_t d : F) : F :=
  RC.z_t + RC.integ_step * vt.dde_equation RC RC.z_t d u_t
    + RC.noise_amp * gen 0 * sqrt RC.integ_step

/-- The nine keys looked up by `Ikeda::set_parameters` and `set_rc_parameters`. -/
def parameter_names : List String :=
  ["beta", "gamma", "epsilon", "phi", "delay", "num_nodes", "theta", "integ_step", "noise_amp"]

/-- Consecutive calls of `euler_maruyama`, one for each entry of `inputs` in order.  Besides the
model and the generator after the last call it returns the values `z_1, ..., z_m` that `z_t`
took, one per call. -/
def run_steps (sqrt : F → F) (vt : vtable F) :
    List F → dde_reservoir F → noise_gen F → Option (List F × dde_reservoir F × noise_gen F)
  | [], RC, gen => some ([], RC, gen)
  | u :: inputs, RC, gen =>
    match RC.euler_maruyama sqrt vt gen u with
    | none => none
    | some (RC1, gen1) =>
      match run_steps sqrt vt inputs RC1 gen1 with
      | none => none
      | some (zs, RC2, gen2) => some (RC1.z_t :: zs, RC2, gen2)

/-- The loop over the virtual nodes for one input value `u`, acting on the one matrix row it
writes to: from node `n` on, `todo` nodes being left. -/
def node_row_loop (sqrt : F → F) (vt : vtable F) (mask : List F) (steps_per_node : Nat) (u : F) :
    Nat → Nat → dde_reservoir F × noise_gen F × List F →
      Option (dde_reservoir F × noise_gen F × List F)
  | 0, _, st => some st
  | todo + 1, n, (RC, gen, row) =>
    match sub_steps sqrt vt [u] mask 0 n steps_per_node RC gen with
    | none => none
    | some (RC, gen) =>
      node_row_loop sqrt vt mask steps_per_node u todo (n + 1)
        (RC, gen, List.set row n (vt.readout RC))

/-- The loop over the input values `us`, acting on the matrix rows `rows` it writes to (one row
for each input value). -/
def rows_loop (sqrt : F → F) (vt : vtable F) (mask : List F) (steps_per_node num_nodes : Nat) :
    List F → List (List F) → dde_reservoir F → noise_gen F →
      Option (dde_reservoir F × noise_gen F × List (List F))
  | u :: us, row :: rows, RC, gen =>
    match node_row_loop sqrt vt mask steps_per_node u num_nodes 0 (RC, gen, row) with
    | none => none
    | some (RC1, gen1, row1) =>
      match rows_loop sqrt vt mask steps_per_node num_nodes us rows RC1 gen1 with
      | none => none
      | some (RC2, gen2, rows2) => some (RC2, gen2, row1 :: rows2)
  | _, rows, RC, gen => some (RC, gen, rows)

/-- The inputs of the integration steps made for one input value `u`: for each mask entry `m` in
order, `steps_per_node` steps with the input computed from `m * u`. -/
def node_schedule (steps_per_node : Nat) (mask : List F) (u : F) : List F :=
  mask.flatMap (fun m => List.replicate steps_per_node (step_input m u))

/-- The inputs of all integration steps, in order: for each input value in order, for each mask
entry in order, `steps_per_node` steps. -/
def schedule (steps_per_node : Nat) (mask us : List F) : List F :=
  us.flatMap (node_schedule steps_per_node mask)

/-- The entry `states(k, n)` of a matrix, if it exists. -/
def mat.entry (states : mat F) (k n : Nat) : Option F :=
  match states[k]? with
  | none => none
  | some row => row[n]?

/-- Two models agree on the generic parameters that `integrate_dde_reservoir` reads. -/
def same_parameters (a b : dde_reservoir F) : Prop :=
  a.delay = b.delay ∧ a.num_nodes = b.num_nodes ∧ a.theta = b.theta ∧
    a.integ_step = b.integ_step ∧ a.noise_amp = b.noise_amp ∧ a.name = b.name

/-- The derivative that a step with input `0` computes on a model resting at `z` (state `z`,
delayed state `z`). -/
def Ikeda.rest_derivative (sin : F → F) (self : Ikeda F) (z : F) : F :=
  (self.vtable sin).dde_equation self.todde_reservoir z z (lit 0)

end auxiliary

/-- The number of integration steps per virtual node in binary32: the integer part of the
`float` quotient `theta / integ_step`, that is, of the exact quotient rounded to binary32. -/
def float_steps (RC : dde_reservoir ieee_value) : Nat :=
  (Int.floor (f32_round (RC.theta.val / RC.integ_step.val))).toNat

section inputs

/-- A small model in exact arithmetic: two virtual nodes, three integration steps per node, a
delay line of two entries. -/
def two_node_input : Ikeda ℚ :=
  { Ikeda.new 0 with
    delay := 2, num_nodes := 2, theta := 3, integ_step := 1,
    z_tau := [1 / 2, 1 / 4] }

/-- A model in exact arithmetic with `delay = 0.5` and `integ_step = 1`:
`Ikeda::init_delay()` gives it an empty delay line. -/
def short_delay_input : Ikeda ℚ :=
  { Ikeda.new 0 with delay := 1 / 2, num_nodes := 1, theta := 1, integ_step := 1 }

/-- A binary32 model whose quotient `delay / integ_step` is `7 / 4`. -/
def truncated_delay_input : Ikeda ieee_value :=
  (Ikeda.new ⟨0⟩).set_parameters [("delay", ⟨7⟩), ("integ_step", ⟨4⟩)]

/-- A binary32 model whose quotient `delay / integ_step` is `2^32`, outside the range of
`int`. -/
def wide_delay_input : Ikeda ieee_value :=
  (Ikeda.new ⟨0⟩).set_parameters [("delay", ⟨4294967296⟩), ("integ_step", ⟨1⟩)]

/-- A binary32 model with one virtual node whose quotient `theta / integ_step` is `7 / 4`. -/
def truncated_theta_input : Ikeda ieee_value :=
  { Ikeda.new ⟨0⟩ with
    delay := ⟨8⟩, num_nodes := 1, theta := ⟨7⟩, integ_step := ⟨4⟩,
    z_tau := [⟨1 / 2⟩, ⟨1 / 4⟩] }

/-- A binary32 model with one virtual node whose quotient `theta / integ_step` is `2^32`,
outside the range of `int`. -/
def wide_theta_input : Ikeda ieee_value :=
  { Ikeda.new ⟨0⟩ with
    delay := ⟨8⟩, num_nodes := 1, theta := ⟨4294967296⟩, integ_step := ⟨1⟩,
    z_tau := [⟨1 / 2⟩, ⟨1 / 4⟩] }

/-- A binary32 model with `delay = 0.5`, `integ_step = 1`, `theta = 1` and one virtual node. -/
def short_delay_ieee : Ikeda ieee_value :=
  { Ikeda.new ⟨0⟩ with delay := ⟨1 / 2⟩, num_nodes := 1, theta := ⟨1⟩, integ_step := ⟨1⟩ }

/-- A small binary32 model: two virtual nodes, three integration steps per node, a delay line of
two entries. -/
def two_node_ieee : Ikeda ieee_value :=
  { Ikeda.new ⟨0⟩ with
    delay := ⟨2⟩, num_nodes := 2, theta := ⟨3⟩, integ_step := ⟨1⟩,
    z_tau := [⟨1 / 2⟩, ⟨1 / 4⟩] }

/-- A noise-free binary32 model with gain `0` and loss coefficient `2^-20`, resting at `0.1f`
with the default `integ_step = 0.01`. -/
def absorbing_ieee : Ikeda ieee_value :=
  { Ikeda.new (float_arith.lit 0.1) with
    noise_amp := ⟨0⟩, beta := ⟨0⟩, epsilon := ⟨1 / 1048576⟩,
    z_tau := List.replicate 3 (float_arith.lit 0.1) }

/-- A parameter map that sets `num_nodes` to the `float` value `3e9`. -/
def wide_nodes_params : param_map ieee_value :=
  [("num_nodes", float_arith.lit 3000000000)]

end inputs

end IkedaRC

namespace IkedaRC

section rounding

theorem trunc_of_nonneg {K : Type} [LinearOrderedField K] [FloorRing K] {x : K} (h : 0 ≤ x) :
    trunc x = Int.floor x := by
  simp [trunc, h]

theorem cpp_int_of_range {K : Type} [LinearOrderedField K] [FloorRing K] {x : K}
    (h1 : -2 ^ 31 - 1 < x) (h2 : x < 2 ^ 31) : cpp_int x = trunc x := by
  simp [cpp_int, h1, h2]

theorem cpp_int_of_nonneg {K : Type} [LinearOrderedField K] [FloorRing K] {x : K} (h : 0 ≤ x)
    (h2 : x < 2 ^ 31) : cpp_int x = Int.floor x := by
  rw [cpp_int_of_range (lt_of_lt_of_le (by norm_num) h) h2, trunc_of_nonneg h]

theorem cpp_int_mem_range {K : Type} [LinearOrderedField K] [FloorRing K] (x : K) :
    -2 ^ 31 ≤ cpp_int x ∧ cpp_int x < 2 ^ 31 := by
  unfold cpp_int
  split_ifs with h
  · obtain ⟨h1, h2⟩ := h
    unfold trunc
    split_ifs with h0
    · constructor
      · exact le_trans (by norm_num) (Int.floor_nonneg.mpr h0)
      · have : ((Int.floor x : Int) : K) < ((2 ^ 31 : Int) : K) := by
          have h3 := lt_of_le_of_lt (Int.floor_le x) h2
          norm_num at h3 ⊢
          exact h3
        exact_mod_cast this
    · have hneg : x < 0 := lt_of_not_le h0
      constructor
      · have : ((-2 ^ 31 - 1 : Int) : K) < ((Int.ceil x : Int) : K) := by
          have h5 := lt_of_lt_of_le h1 (Int.le_ceil x)
          norm_num at h5 ⊢
          exact h5
        have h3 : (-2 ^ 31 - 1 : Int) < Int.ceil x := by exact_mod_cast this
        omega
      · have h4 : Int.ceil x ≤ 0 := Int.ceil_le.mpr (by exact_mod_cast le_of_lt hneg)
        exact lt_of_le_of_lt h4 (by norm_num)
  · constructor
    · exact le_refl _
    · norm_num

theorem rne_intCast (n : Int) : rne (n : ℚ) = n := by
  simp [rne]

theorem rne_nonneg {x : ℚ} (h : 0 ≤ x) : 0 ≤ rne x := by
  have hf : 0 ≤ Int.floor x := Int.floor_nonneg.mpr h
  unfold rne
  split_ifs <;> omega

theorem int_log_eq_of_binade {x : ℚ} {e : Int} (h1 : 2 ^ e ≤ |x|) (h2 : |x| < 2 ^ (e + 1)) :
    Int.log 2 |x| = e := by
  have hpos : 0 < |x| := lt_of_lt_of_le (zpow_pos (by norm_num) e) h1
  have ha : e ≤ Int.log 2 |x| :=
    (Int.zpow_le_iff_le_log (by norm_num) hpos).mp (by exact_mod_cast h1)
  have hb : Int.log 2 |x| < e + 1 :=
    (Int.lt_zpow_iff_log_lt (by norm_num) hpos).mp (by exact_mod_cast h2)
  omega

theorem fp_round_of_binade (prec : Nat) (emin : Int) {x : ℚ} {e : Int} (h1 : 2 ^ e ≤ |x|)
    (h2 : |x| < 2 ^ (e + 1)) :
    fp_round prec emin x
      = (rne (x / 2 ^ max (e - ((prec : Int) - 1)) emin) : ℚ)
          * 2 ^ max (e - ((prec : Int) - 1)) emin := by
  have hpos : 0 < |x| := lt_of_lt_of_le (zpow_pos (by norm_num) e) h1
  have hx : x ≠ 0 := abs_pos.mp hpos
  simp only [fp_round, last_place, if_neg hx, int_log_eq_of_binade h1 h2]

theorem fp_round_exact (prec : Nat) (emin : Int) {x : ℚ} (e m : Int) (h1 : 2 ^ e ≤ |x|)
    (h2 : |x| < 2 ^ (e + 1)) (hm : x = (m : ℚ) * 2 ^ max (e - ((prec : Int) - 1)) emin) :
    fp_round prec emin x = x := by
  rw [fp_round_of_binade prec emin h1 h2]
  have hk : (2 : ℚ) ^ max (e - ((prec : Int) - 1)) emin ≠ 0 :=
    zpow_ne_zero _ (by norm_num)
  have hq : x / 2 ^ max (e - ((prec : Int) - 1)) emin = (m : ℚ) := by
    rw [hm, mul_div_assoc, div_self hk, mul_one]
  rw [hq, rne_intCast, ← hm]

theorem fp_round_of_pos_binade (prec : Nat) (emin : Int) {x : ℚ} {e : Int} (h1 : 2 ^ e ≤ x)
    (h2 : x < 2 ^ (e + 1)) :
    fp_round prec emin x
      = (rne (x / 2 ^ max (e - ((prec : Int) - 1)) emin) : ℚ)
          * 2 ^ max (e - ((prec : Int) - 1)) emin := by
  have hpos : 0 < x := lt_of_lt_of_le (zpow_pos (by norm_num) e) h1
  exact fp_round_of_binade prec emin (by rwa [abs_of_pos hpos]) (by rwa [abs_of_pos hpos])

theorem fp_round_exact_pos (prec : Nat) (emin : Int) {x : ℚ} (e m : Int) (h1 : 2 ^ e ≤ x)
    (h2 : x < 2 ^ (e + 1)) (hm : x = (m : ℚ) * 2 ^ max (e - ((prec : Int) - 1)) emin) :
    fp_round prec emin x = x := by
  have hpos : 0 < x := lt_of_lt_of_le (zpow_pos (by norm_num) e) h1
  exact fp_round_exact prec emin e m (by rwa [abs_of_pos hpos]) (by rwa [abs_of_pos hpos]) hm

theorem fp_round_nonneg (prec : Nat) (emin : Int) {x : ℚ} (h : 0 ≤ x) :
    0 ≤ fp_round prec emin x := by
  unfold fp_round
  split_ifs with h0
  · exact le_refl _
  · have hk : (0 : ℚ) < 2 ^ last_place prec emin x := zpow_pos (by norm_num) _
    have hr : 0 ≤ rne (x / 2 ^ last_place prec emin x) := rne_nonneg (div_nonneg h (le_of_lt hk))
    exact mul_nonneg (by exact_mod_cast hr) (le_of_lt hk)

theorem ieee_to_int (a : ieee_value) : float_arith.to_int a = cpp_int a.val := rfl

theorem ieee_lit_val (q : ℚ) : (float_arith.lit q : ieee_value).val = f32_round q := rfl

theorem ieee_div_val (a b : ieee_value) : (a / b).val = f32_round (a.val / b.val) := rfl

theorem ieee_ext {a b : ieee_value} (h : a.val = b.val) : a = b := by
  cases a
  cases b
  simp only at h
  rw [h]

theorem f32_round_zero : f32_round 0 = 0 := by
  simp [f32_round, fp_round]

theorem f32_round_seven_quarters : f32_round (7 / 4) = 7 / 4 := by
  refine fp_round_exact_pos 24 (-149) 0 (7 * 2 ^ 21) ?_ ?_ ?_ <;> norm_num

theorem f32_round_half : f32_round (1 / 2) = 1 / 2 := by
  refine fp_round_exact_pos 24 (-149) (-1) (2 ^ 23) ?_ ?_ ?_ <;> norm_num

theorem f32_round_one : f32_round 1 = 1 := by
  refine fp_round_exact_pos 24 (-149) 0 (2 ^ 23) ?_ ?_ ?_ <;> norm_num

theorem f32_round_three : f32_round 3 = 3 := by
  refine fp_round_exact_pos 24 (-149) 1 (3 * 2 ^ 22) ?_ ?_ ?_ <;> norm_num

theorem f32_round_three_billion : f32_round 3000000000 = 3000000000 := by
  refine fp_round_exact_pos 24 (-149) 31 11718750 ?_ ?_ ?_ <;> norm_num

theorem f32_round_tenth : f32_round (1 / 10) = 13421773 / 134217728 := by
  have h := fp_round_of_pos_binade 24 (-149) (x := 1 / 10) (e := -4) (by norm_num) (by norm_num)
  have hr : rne ((1 : ℚ) / 10 / 2 ^ (-27 : Int)) = 13421773 := by
    have hf : Int.floor ((1 : ℚ) / 10 / 2 ^ (-27 : Int)) = 13421772 := by
      rw [Int.floor_eq_iff]; norm_num
    unfold rne
    rw [hf]
    norm_num
  have hmax : max ((-4 : Int) - (((24 : Nat) : Int) - 1)) (-149) = -27 := by norm_num
  rw [hmax, hr] at h
  rw [f32_round, h]
  norm_num

end rounding

end IkedaRC

namespace IkedaRC

section basic

open float_arith

variable {F : Type} [float_arith F]

theorem euler_maruyama_nil (sqrt : F → F) (vt : vtable F) (RC : dde_reservoir F)
    (gen : noise_gen F) (u_t : F) (h : RC.z_tau = []) :
    RC.euler_maruyama sqrt vt gen u_t = none := by
  simp [dde_reservoir.euler_maruyama, h]

theorem euler_maruyama_cons (sqrt : F → F) (vt : vtable F) (RC : dde_reservoir F)
    (gen : noise_gen F) (u_t d : F) (rest : List F) (h : RC.z_tau = d :: rest) :
    RC.euler_maruyama sqrt vt gen u_t =
      some ({ RC with z_t := next_z sqrt vt RC gen u_t d,
                      z_tau := rest ++ [next_z sqrt vt RC gen u_t d] },
            fun i => gen (i + 1)) := by
  simp [dde_reservoir.euler_maruyama, h, noise, next_z]

/-- C2: on a model whose delay line is `d :: rest` (so `d` is its front, oldest entry) one call
of `euler_maruyama` succeeds, sets `z_t` to
`z_t + integ_step * dde_equation(z_t, d, u_t) + noise_amp * xi * sqrt(integ_step)` with `xi`
the next noise sample, and consumes exactly that one sample.  This holds in every arithmetic,
binary32 included. -/
theorem euler_maruyama_update (sqrt : F → F) (vt : vtable F) (RC : dde_reservoir F)
    (gen : noise_gen F) (u_t d : F) (rest : List F) (h : RC.z_tau = d :: rest) :
    ∃ RC1 gen1, RC.euler_maruyama sqrt vt gen u_t = some (RC1, gen1) ∧
      RC1.z_t = RC.z_t + RC.integ_step * vt.dde_equation RC RC.z_t d u_t
        + RC.noise_amp * gen 0 * sqrt RC.integ_step ∧
      gen1 = fun i => gen (i + 1) := by
  exact ⟨_, _, euler_maruyama_cons sqrt vt RC gen u_t d rest h, rfl, rfl⟩

theorem euler_maruyama_update_witness :
    ∃ RC1 gen1,
      (two_node_input : Ikeda ℚ).todde_reservoir.euler_maruyama (fun x => x)
        ((two_node_input : Ikeda ℚ).vtable (fun x => x)) (fun _ => 1) 3 = some (RC1, gen1) ∧
      RC1.z_t = (two_node_input : Ikeda ℚ).z_t + (two_node_input : Ikeda ℚ).integ_step *
          ((two_node_input : Ikeda ℚ).vtable (fun x => x)).dde_equation
            (two_node_input : Ikeda ℚ).todde_reservoir (two_node_input : Ikeda ℚ).z_t (1 / 2) 3
        + (two_node_input : Ikeda ℚ).noise_amp * (fun _ => (1 : ℚ)) 0 *
          (fun x => x) (two_node_input : Ikeda ℚ).integ_step ∧
      gen1 = fun i => (fun _ => (1 : ℚ)) (i + 1) :=
  euler_maruyama_update (fun x => x) ((two_node_input : Ikeda ℚ).vtable (fun x => x))
    (two_node_input : Ikeda ℚ).todde_reservoir (fun _ => 1) 3 (1 / 2) [1 / 4] rfl

end basic

section formula

variable {F : Type} [LinearOrderedField F] [FloorRing F]

/-- C6: `Ikeda::dde_equation(z_t, z_delayed, u_t)` is
`-epsilon * z_t + beta * sin(z_delayed + gamma * u_t + phi)^2`, `Ikeda::readout()` is `z_t`,
and `dde_equation` gives the same value whatever the base-class part of the object (its
`z_t`, its delay line and the generic parameters) is replaced by. -/
theorem Ikeda_dde_equation_formula (sin : F → F) (self : Ikeda F) (base : dde_reservoir F)
    (z_t z_delayed u_t : F) :
    self.dde_equation sin z_t z_delayed u_t
        = -self.epsilon * z_t + self.beta * (sin (z_delayed + self.gamma * u_t + self.phi)) ^ 2 ∧
      self.readout = self.z_t ∧
      Ikeda.dde_equation sin { self with todde_reservoir := base } z_t z_delayed u_t
        = self.dde_equation sin z_t z_delayed u_t := by
  refine ⟨?_, rfl, rfl⟩
  show -self.epsilon * z_t
      + self.beta * sin (z_delayed + self.gamma * u_t + self.phi)
        * sin (z_delayed + self.gamma * u_t + self.phi)
    = -self.epsilon * z_t + self.beta * (sin (z_delayed + self.gamma * u_t + self.phi)) ^ 2
  ring

end formula

end IkedaRC

namespace IkedaRC

section parameters

open float_arith

set_option linter.unusedSectionVars false

variable {F : Type} [float_arith F]

theorem lookup_filter_of_mem (keys : List String) (k : String) (hk : k ∈ keys) :
    ∀ params : param_map F,
      List.lookup k (params.filter (fun kv => decide (kv.1 ∈ keys))) = List.lookup k params
  | [] => rfl
  | (k1, v) :: params => by
    have ih := lookup_filter_of_mem keys k hk params
    by_cases h1 : k1 ∈ keys
    · by_cases hkk : k = k1
      · subst hkk
        simp [List.filter, h1, List.lookup]
      · have hb : (k == k1) = false := by simpa using hkk
        simp [List.filter, h1, List.lookup, hb, ih]
    · have hkk : k ≠ k1 := fun h => h1 (h ▸ hk)
      have hb : (k == k1) = false := by simpa using hkk
      simp [List.filter, h1, List.lookup, hb, ih]

theorem set_rc_parameters_eq (RC : dde_reservoir F) (params : param_map F) :
    RC.set_rc_parameters params =
      { delay := (params.lookup "delay").getD RC.delay,
        num_nodes := ((params.lookup "num_nodes").map to_int).getD RC.num_nodes,
        theta := (params.lookup "theta").getD RC.theta,
        integ_step := (params.lookup "integ_step").getD RC.integ_step,
        noise_amp := (params.lookup "noise_amp").getD RC.noise_amp,
        name := RC.name, z_t := RC.z_t, z_tau := RC.z_tau } := by
  unfold dde_reservoir.set_rc_parameters
  cases List.lookup "delay" params <;> cases List.lookup "num_nodes" params <;>
    cases List.lookup "theta" params <;> cases List.lookup "integ_step" params <;>
    cases List.lookup "noise_amp" params <;> rfl

theorem set_parameters_eq (self : Ikeda F) (params : param_map F) :
    self.set_parameters params =
      { todde_reservoir := self.todde_reservoir.set_rc_parameters params,
        beta := (params.lookup "beta").getD self.beta,
        gamma := (params.lookup "gamma").getD self.gamma,
        epsilon := (params.lookup "epsilon").getD self.epsilon,
        phi := (params.lookup "phi").getD self.phi } := by
  unfold Ikeda.set_parameters
  cases List.lookup "beta" params <;> cases List.lookup "gamma" params <;>
    cases List.lookup "epsilon" params <;> cases List.lookup "phi" params <;> rfl

theorem set_parameters_filter (self : Ikeda F) (params : param_map F) :
    self.set_parameters (params.filter (fun kv => decide (kv.1 ∈ parameter_names)))
      = self.set_parameters params := by
  have hk : ∀ k, k ∈ parameter_names →
      List.lookup k (params.filter (fun kv => decide (kv.1 ∈ parameter_names)))
        = List.lookup k params :=
    fun k hk => lookup_filter_of_mem parameter_names k hk params
  rw [set_parameters_eq, set_rc_parameters_eq, set_parameters_eq self params,
    set_rc_parameters_eq,
    hk "beta" (by decide), hk "gamma" (by decide), hk "epsilon" (by decide),
    hk "phi" (by decide), hk "delay" (by decide), hk "num_nodes" (by decide),
    hk "theta" (by decide), hk "integ_step" (by decide), hk "noise_amp" (by decide)]

theorem set_parameters_num_nodes (self : Ikeda F) (params : param_map F) (v : F)
    (hl : params.lookup "num_nodes" = some v) :
    (self.set_parameters params).num_nodes = to_int v := by
  rw [set_parameters_eq, set_rc_parameters_eq, hl]
  rfl

/-- C7 (as stated, refuted): the `float` value `3e9` has integer part `3000000000`, which no
32-bit `int` holds; after `set_parameters` with `num_nodes` mapped to it, the field
`num_nodes` is some `int` and so not that integer part. -/
theorem set_parameters_num_nodes_range :
    (List.lookup "num_nodes" wide_nodes_params).map (fun v => v.val) = some 3000000000 ∧
    (List.lookup "num_nodes" wide_nodes_params).map (fun v => trunc v.val) = some 3000000000 ∧
    -2 ^ 31 ≤ ((Ikeda.new (⟨0⟩ : ieee_value)).set_parameters wide_nodes_params).num_nodes ∧
    ((Ikeda.new (⟨0⟩ : ieee_value)).set_parameters wide_nodes_params).num_nodes < 2 ^ 31 ∧
    ((Ikeda.new (⟨0⟩ : ieee_value)).set_parameters wide_nodes_params).num_nodes
      ≠ 3000000000 := by
  have hv : (lit 3000000000 : ieee_value).val = 3000000000 := by
    rw [ieee_lit_val, f32_round_three_billion]
  have hl : List.lookup "num_nodes" wide_nodes_params = some (lit 3000000000) := by
    simp [wide_nodes_params, List.lookup]
  have hn : ((Ikeda.new (⟨0⟩ : ieee_value)).set_parameters wide_nodes_params).num_nodes
      = cpp_int (lit 3000000000 : ieee_value).val := by
    rw [set_parameters_num_nodes _ _ _ hl, ieee_to_int]
  have hr := cpp_int_mem_range (lit 3000000000 : ieee_value).val
  refine ⟨?_, ?_, ?_, ?_, ?_⟩
  · rw [hl, Option.map_some', hv]
  · rw [hl, Option.map_some', hv, trunc_of_nonneg (by norm_num)]
    norm_num
  · rw [hn]; exact hr.1
  · rw [hn]; exact hr.2
  · rw [hn]
    intro h
    rw [h] at hr
    norm_num at hr

/-- C7 (amended): for every binary32 parameter map whose `num_nodes` value, if present, has its
integer part in the range of a 32-bit `int`, `Ikeda::set_parameters(params)` sets each of the
nine fields to the mapped value when its name is a key of `params` (`num_nodes` to the integer
part, truncated toward zero) and leaves it unchanged otherwise; `z_t`, the delay line and `name`
are unchanged; removing every entry whose key is not one of the nine names does not change the
result; the empty map changes nothing. -/
theorem set_parameters_frame (self : Ikeda ieee_value) (params : param_map ieee_value)
    (hrange : ∀ v, params.lookup "num_nodes" = some v → -2 ^ 31 - 1 < v.val ∧ v.val < 2 ^ 31) :
    (self.set_parameters params).beta = (params.lookup "beta").getD self.beta ∧
    (self.set_parameters params).gamma = (params.lookup "gamma").getD self.gamma ∧
    (self.set_parameters params).epsilon = (params.lookup "epsilon").getD self.epsilon ∧
    (self.set_parameters params).phi = (params.lookup "phi").getD self.phi ∧
    (self.set_parameters params).delay = (params.lookup "delay").getD self.delay ∧
    (self.set_parameters params).num_nodes
      = ((params.lookup "num_nodes").map (fun v => trunc v.val)).getD self.num_nodes ∧
    (self.set_parameters params).theta = (params.lookup "theta").getD self.theta ∧
    (self.set_parameters params).integ_step
      = (params.lookup "integ_step").getD self.integ_step ∧
    (self.set_parameters params).noise_amp
      = (params.lookup "noise_amp").getD self.noise_amp ∧
    (self.set_parameters params).z_t = self.z_t ∧
    (self.set_parameters params).z_tau = self.z_tau ∧
    (self.set_parameters params).name = self.name ∧
    self.set_parameters (params.filter (fun kv => decide (kv.1 ∈ parameter_names)))
      = self.set_parameters params ∧
    self.set_parameters [] = self := by
  have hnodes : ((params.lookup "num_nodes").map (to_int : ieee_value → Int)).getD self.num_nodes
      = ((params.lookup "num_nodes").map (fun v => trunc v.val)).getD self.num_nodes := by
    cases hl : List.lookup "num_nodes" params with
    | none => rfl
    | some v =>
      obtain ⟨h1, h2⟩ := hrange v hl
      simp only [Option.map_some', Option.getD_some]
      rw [ieee_to_int]
      exact cpp_int_of_range h1 h2
  refine ⟨?_, ?_, ?_, ?_, ?_, ?_, ?_, ?_, ?_, ?_, ?_, ?_, set_parameters_filter self params, rfl⟩
  any_goals (rw [set_parameters_eq, set_rc_parameters_eq])
  exact hnodes

theorem set_parameters_frame_witness :
    ((two_node_ieee.set_parameters [("num_nodes", ⟨7 / 2⟩), ("seed", ⟨5⟩)]).num_nodes
      = ((List.lookup "num_nodes" [("num_nodes", (⟨7 / 2⟩ : ieee_value)), ("seed", ⟨5⟩)]).map
          (fun v => trunc v.val)).getD two_node_ieee.num_nodes) ∧
    (two_node_ieee.set_parameters [("num_nodes", ⟨7 / 2⟩), ("seed", ⟨5⟩)]).z_tau
      = two_node_ieee.z_tau :=
  match set_parameters_frame two_node_ieee [("num_nodes", ⟨7 / 2⟩), ("seed", ⟨5⟩)]
      (by
        intro v hv
        have hv2 : v = ⟨7 / 2⟩ := by
          simp only [List.lookup] at hv
          exact (Option.some.inj hv).symm
        rw [hv2]
        constructor <;> norm_num) with
  | ⟨_, _, _, _, _, h6, _, _, _, _, h11, _⟩ => ⟨h6, h11⟩

end parameters

end IkedaRC

namespace IkedaRC

section initialisation

open float_arith

set_option linter.unusedSectionVars false

variable {F : Type} [float_arith F]

theorem set_parameters_delay (self : Ikeda F) (params : param_map F) (v : F)
    (hl : params.lookup "delay" = some v) : (self.set_parameters params).delay = v := by
  rw [set_parameters_eq, set_rc_parameters_eq, hl]
  rfl

theorem set_parameters_integ_step (self : Ikeda F) (params : param_map F) (v : F)
    (hl : params.lookup "integ_step" = some v) :
    (self.set_parameters params).integ_step = v := by
  rw [set_parameters_eq, set_rc_parameters_eq, hl]
  rfl

theorem init_delay_eq (self : Ikeda F) :
    self.init_delay.z_t = lit 0.1 ∧
    self.init_delay.z_tau
      = List.replicate (to_int (self.delay / self.integ_step)).toNat (lit 0.1) :=
  ⟨rfl, rfl⟩

theorem init_delay_of_quotient (self : Ikeda ieee_value) (d s : ℚ) (hd : self.delay = ⟨d⟩)
    (hs : self.integ_step = ⟨s⟩) :
    self.init_delay.z_tau = List.replicate (cpp_int (f32_round (d / s))).toNat (lit 0.1) := by
  rw [(init_delay_eq self).2, ieee_to_int, ieee_div_val, hd, hs]

theorem f32_round_two_pow_32 : f32_round 4294967296 = 4294967296 := by
  refine fp_round_exact_pos 24 (-149) 32 (2 ^ 23) ?_ ?_ ?_ <;> norm_num

theorem round_seven_quarters : round ((7 : ℚ) / 4) = 2 := by
  rw [round_eq, Int.floor_eq_iff]; norm_num

theorem cpp_int_seven_quarters : cpp_int ((7 : ℚ) / 4) = 1 := by
  rw [cpp_int_of_nonneg (by norm_num) (by norm_num)]; norm_num

theorem cpp_int_two_pow_32 : cpp_int (4294967296 : ℚ) = -2 ^ 31 := by
  unfold cpp_int
  rw [if_neg]
  norm_num

theorem truncated_delay_input_delay : truncated_delay_input.delay = ⟨7⟩ :=
  set_parameters_delay _ _ _ (by simp [List.lookup])

theorem truncated_delay_input_integ_step : truncated_delay_input.integ_step = ⟨4⟩ :=
  set_parameters_integ_step _ _ _ (by simp [List.lookup])

/-- C4 (as stated, refuted): in binary32, for `delay = 7` and `integ_step = 4`, both positive,
`Ikeda::init_delay()` leaves a delay line of one entry, while `round(delay / integ_step)` is
two; and for `delay = 2^32`, `integ_step = 1` the quotient is outside the range of `int`, so
that the number of entries, the conversion of an `int`, is not `round(delay / integ_step)`. -/
theorem init_delay_length_ne_round :
    0 < truncated_delay_input.delay.val ∧
    0 < truncated_delay_input.integ_step.val ∧
    truncated_delay_input.init_delay.z_tau = [lit 0.1] ∧
    round (truncated_delay_input.delay.val / truncated_delay_input.integ_step.val) = 2 ∧
    round (truncated_delay_input.delay / truncated_delay_input.integ_step).val = 2 ∧
    (truncated_delay_input.init_delay.z_tau.length : Int)
      ≠ round (truncated_delay_input.delay.val / truncated_delay_input.integ_step.val) ∧
    0 < wide_delay_input.delay.val ∧
    0 < wide_delay_input.integ_step.val ∧
    round (wide_delay_input.delay.val / wide_delay_input.integ_step.val) = 4294967296 ∧
    (wide_delay_input.init_delay.z_tau.length : Int)
      ≠ round (wide_delay_input.delay.val / wide_delay_input.integ_step.val) := by
  have hd := truncated_delay_input_delay
  have hs := truncated_delay_input_integ_step
  have hz : truncated_delay_input.init_delay.z_tau = [lit 0.1] := by
    rw [init_delay_of_quotient _ 7 4 hd hs, f32_round_seven_quarters, cpp_int_seven_quarters]
    rfl
  have hd2 : wide_delay_input.delay = ⟨4294967296⟩ :=
    set_parameters_delay _ _ _ (by simp [List.lookup])
  have hs2 : wide_delay_input.integ_step = ⟨1⟩ :=
    set_parameters_integ_step _ _ _ (by simp [List.lookup])
  have hz2 : wide_delay_input.init_delay.z_tau = [] := by
    rw [init_delay_of_quotient _ 4294967296 1 hd2 hs2, div_one, f32_round_two_pow_32,
      cpp_int_two_pow_32]
    rfl
  have hr2 : round ((4294967296 : ℚ) / 1) = 4294967296 := by
    rw [div_one]
    exact round_natCast 4294967296
  refine ⟨?_, ?_, hz, ?_, ?_, ?_, ?_, ?_, ?_, ?_⟩
  · rw [hd]; norm_num
  · rw [hs]; norm_num
  · rw [hd, hs]; exact round_seven_quarters
  · rw [ieee_div_val, hd, hs, f32_round_seven_quarters]; exact round_seven_quarters
  · rw [hz, hd, hs, round_seven_quarters]
    decide
  · rw [hd2]; norm_num
  · rw [hs2]; norm_num
  · rw [hd2, hs2]; exact hr2
  · rw [hz2, hd2, hs2, hr2]
    decide

/-- C4 (amended): in binary32, for `delay > 0` and `integ_step > 0` whose `float` quotient
`delay / integ_step` (the exact quotient rounded to binary32) is below `2^31`, right after
`Ikeda::init_delay()` the state `z_t` is the `float` `0.1f` and the delay line has exactly
`int(delay / integ_step)` entries, the integer part of that `float` quotient (truncated, not
rounded to nearest), every one equal to `0.1f`. -/
theorem Ikeda_init_delay_constant (self : Ikeda ieee_value) (hd : 0 < self.delay.val)
    (hs : 0 < self.integ_step.val)
    (hrange : f32_round (self.delay.val / self.integ_step.val) < 2 ^ 31) :
    self.init_delay.z_t = lit 0.1 ∧
    (lit 0.1 : ieee_value).val = 13421773 / 134217728 ∧
    (self.delay / self.integ_step).val = f32_round (self.delay.val / self.integ_step.val) ∧
    (self.init_delay.z_tau.length : Int)
      = Int.floor (f32_round (self.delay.val / self.integ_step.val)) ∧
    ∀ z ∈ self.init_delay.z_tau, z = lit 0.1 := by
  have hq : 0 ≤ f32_round (self.delay.val / self.integ_step.val) :=
    fp_round_nonneg 24 (-149) (le_of_lt (div_pos hd hs))
  have hline := (init_delay_eq self).2
  refine ⟨rfl, ?_, rfl, ?_, ?_⟩
  · rw [ieee_lit_val]
    have h : ((0.1 : ℚ)) = 1 / 10 := by norm_num
    rw [h, f32_round_tenth]
  · rw [hline, List.length_replicate, ieee_to_int, ieee_div_val, cpp_int_of_nonneg hq hrange]
    exact Int.toNat_of_nonneg (Int.floor_nonneg.mpr hq)
  · intro z hz
    rw [hline] at hz
    exact List.eq_of_mem_replicate hz

theorem Ikeda_init_delay_constant_witness :
    truncated_delay_input.init_delay.z_t = lit 0.1 ∧
    (truncated_delay_input.init_delay.z_tau.length : Int)
      = Int.floor (f32_round
          (truncated_delay_input.delay.val / truncated_delay_input.integ_step.val)) :=
  match Ikeda_init_delay_constant truncated_delay_input
      (by rw [truncated_delay_input_delay]; norm_num)
      (by rw [truncated_delay_input_integ_step]; norm_num)
      (by
        rw [truncated_delay_input_delay, truncated_delay_input_integ_step,
          f32_round_seven_quarters]
        norm_num) with
  | ⟨h1, _, _, h4, _⟩ => ⟨h1, h4⟩

end initialisation

end IkedaRC

namespace IkedaRC

section fixed_point

open float_arith

set_option linter.unusedSectionVars false

variable {F : Type} [float_arith F]

theorem replicate_tail_append {α : Type} (n : Nat) (z : α) :
    List.replicate n z ++ [z] = List.replicate (n + 1) z := by
  induction n with
  | zero => rfl
  | succ n ih => simp only [List.replicate_succ, List.cons_append, ih]

/-- On a model resting at `z` (state `z`, every delay-line entry `z`) a step with input `u_t`
returns the same model exactly when the value it computes for `z_t` is `z` again. -/
theorem euler_maruyama_rest (sqrt : F → F) (vt : vtable F) (RC : dde_reservoir F)
    (gen : noise_gen F) (u_t z : F) (n : Nat) (hz : RC.z_t = z)
    (hline : RC.z_tau = List.replicate (n + 1) z) :
    RC.euler_maruyama sqrt vt gen u_t = some (RC, fun i => gen (i + 1))
      ↔ next_z sqrt vt RC gen u_t z = z := by
  have hcons : RC.z_tau = z :: List.replicate n z := by rw [hline, List.replicate_succ]
  rw [euler_maruyama_cons sqrt vt RC gen u_t z (List.replicate n z) hcons]
  constructor
  · intro h
    have h1 := congrArg (fun r => r.1.z_t) (Option.some.inj h)
    simp only [hz] at h1
    exact h1
  · intro h
    rw [h, replicate_tail_append]
    obtain ⟨delay, num_nodes, theta, integ_step, noise_amp, name, z_t, z_tau⟩ := RC
    simp only at hz hline
    subst hz hline
    rfl

end fixed_point

section exact_fixed_point

variable {F : Type} [LinearOrderedField F] [FloorRing F]

end exact_fixed_point

end IkedaRC

namespace IkedaRC

section delay_line

open float_arith

set_option linter.unusedSectionVars false

variable {F : Type} [float_arith F]

/-- Everything `run_steps` does to a model with a non-empty delay line. -/
theorem run_steps_spec (sqrt : F → F) (vt : vtable F) :
    ∀ (inputs : List F) (RC : dde_reservoir F) (gen : noise_gen F), RC.z_tau ≠ [] →
      ∃ zs RC1 gen1, run_steps sqrt vt inputs RC gen = some (zs, RC1, gen1) ∧
        zs.length = inputs.length ∧
        RC1.z_tau = (RC.z_tau ++ zs).drop inputs.length ∧
        RC1.z_tau.length = RC.z_tau.length ∧
        (inputs ≠ [] → RC1.z_tau.getLast? = some RC1.z_t) ∧
        gen1 = fun i => gen (inputs.length + i)
  | [], RC, gen, _ => by
    refine ⟨[], RC, gen, rfl, rfl, by simp, rfl, fun h => absurd rfl h, ?_⟩
    funext i
    simp
  | u :: inputs, RC, gen, hne => by
    obtain ⟨d, rest, hcons⟩ := List.exists_cons_of_ne_nil hne
    have hstep := euler_maruyama_cons sqrt vt RC gen u d rest hcons
    set RC1 : dde_reservoir F :=
      { RC with z_t := next_z sqrt vt RC gen u d, z_tau := rest ++ [next_z sqrt vt RC gen u d] }
      with hRC1
    have hne1 : RC1.z_tau ≠ [] := by simp [hRC1]
    obtain ⟨zs, RC2, gen2, hrun, hlen, hline, hsize, hlast, hgen⟩ :=
      run_steps_spec sqrt vt inputs RC1 (fun i => gen (i + 1)) hne1
    refine ⟨RC1.z_t :: zs, RC2, gen2, ?_, ?_, ?_, ?_, ?_, ?_⟩
    · simp only [run_steps, hstep, hrun]
    · simp [hlen]
    · rw [hline, hcons]
      simp [hRC1]
    · rw [hsize, hcons]
      simp [hRC1]
    · intro _
      cases inputs with
      | nil =>
        simp only [run_steps, Option.some.injEq, Prod.mk.injEq] at hrun
        obtain ⟨_, h2, _⟩ := hrun
        rw [← h2]
        simp [hRC1]
      | cons u1 inputs1 => exact hlast (by simp)
    · rw [hgen]
      funext i
      simp only [List.length_cons]
      congr 1
      omega

/-- C3: starting from a delay line of length `N ≥ 1`, `m` consecutive calls of `euler_maruyama`
(any inputs, any noise) succeed and leave a delay line of length `N` that is, oldest first, the
last `N` elements of the initial delay line followed by the values `z_1, ..., z_m` that `z_t`
took; for `m ≥ 1` its last entry is the current `z_t`; and its front, the delayed value read by
step `m + 1`, is entry `m` of the initial line when `m < N` and `z_(m + 1 - N)` otherwise. -/
theorem delay_line_window (sqrt : F → F) (vt : vtable F) (RC : dde_reservoir F)
    (gen : noise_gen F) (inputs : List F) (N : Nat) (hN : 1 ≤ N) (hlen : RC.z_tau.length = N) :
    ∃ zs RC1 gen1, run_steps sqrt vt inputs RC gen = some (zs, RC1, gen1) ∧
      zs.length = inputs.length ∧
      RC1.z_tau.length = N ∧
      RC1.z_tau = (RC.z_tau ++ zs).drop ((RC.z_tau ++ zs).length - N) ∧
      (1 ≤ inputs.length → RC1.z_tau.getLast? = some RC1.z_t) ∧
      RC1.z_tau[0]?
        = (if inputs.length < N then RC.z_tau[inputs.length]? else zs[inputs.length - N]?) := by
  have hne : RC.z_tau ≠ [] := by
    intro h
    rw [h] at hlen
    simp at hlen
    omega
  obtain ⟨zs, RC1, gen1, hrun, hzs, hline, hsize, hlast, _⟩ :=
    run_steps_spec sqrt vt inputs RC gen hne
  refine ⟨zs, RC1, gen1, hrun, hzs, by rw [hsize, hlen], ?_, ?_, ?_⟩
  · rw [hline]
    congr 1
    simp only [List.length_append, hlen, hzs]
    omega
  · intro hm
    apply hlast
    intro h
    rw [h] at hm
    simp at hm
  · rw [hline, List.getElem?_drop, List.getElem?_append, hlen]
    simp

theorem delay_line_window_witness :
    ∃ zs RC1 gen1,
      run_steps (fun x => x) ((two_node_input : Ikeda ℚ).vtable (fun x => x)) [1, 2, 3]
        (two_node_input : Ikeda ℚ).todde_reservoir (fun _ => 0) = some (zs, RC1, gen1) ∧
      zs.length = [(1 : ℚ), 2, 3].length ∧
      RC1.z_tau.length = 2 ∧
      RC1.z_tau = ((two_node_input : Ikeda ℚ).z_tau ++ zs).drop
        (((two_node_input : Ikeda ℚ).z_tau ++ zs).length - 2) ∧
      (1 ≤ [(1 : ℚ), 2, 3].length → RC1.z_tau.getLast? = some RC1.z_t) ∧
      RC1.z_tau[0]?
        = (if [(1 : ℚ), 2, 3].length < 2 then
            (two_node_input : Ikeda ℚ).z_tau[[(1 : ℚ), 2, 3].length]?
          else zs[[(1 : ℚ), 2, 3].length - 2]?) :=
  delay_line_window (fun x => x) ((two_node_input : Ikeda ℚ).vtable (fun x => x))
    (two_node_input : Ikeda ℚ).todde_reservoir (fun _ => 0) [1, 2, 3] 2 (by decide) rfl

end delay_line

end IkedaRC

namespace IkedaRC

section loops

open float_arith

set_option linter.unusedSectionVars false

variable {F : Type} [float_arith F]

theorem set_of_get_some {α : Type} :
    ∀ (l : List α) (k : Nat) (a : α), l[k]? = some a → List.set l k a = l
  | [], _, _, h => by simp at h
  | x :: l, 0, a, h => by
    simp only [List.getElem?_cons_zero, Option.some.injEq] at h
    simp [h]
  | x :: l, k + 1, a, h => by
    simp only [List.getElem?_cons_succ] at h
    simp [set_of_get_some l k a h]

theorem get_append_cons {α : Type} (A : List α) (r : α) (B : List α) :
    (A ++ r :: B)[A.length]? = some r := by
  rw [List.getElem?_append_right (Nat.le_refl _)]
  simp

theorem set_append_cons {α : Type} (A : List α) (r r1 : α) (B : List α) :
    List.set (A ++ r :: B) A.length r1 = A ++ r1 :: B := by
  simp

theorem sub_steps_single (sqrt : F → F) (vt : vtable F) (u_t mask : List F) (k n : Nat) (u : F)
    (hu : u_t[k]? = some u) :
    ∀ (steps : Nat) (RC : dde_reservoir F) (gen : noise_gen F),
      sub_steps sqrt vt u_t mask k n steps RC gen = sub_steps sqrt vt [u] mask 0 n steps RC gen
  | 0, _, _ => rfl
  | steps + 1, RC, gen => by
    simp only [sub_steps, hu, List.getElem?_cons_zero]
    cases mask[n]? with
    | none => rfl
    | some m =>
      simp only
      cases RC.euler_maruyama sqrt vt gen (step_input m u) with
      | none => rfl
      | some r => exact sub_steps_single sqrt vt u_t mask k n u hu steps r.1 r.2

theorem node_loop_eq_row (sqrt : F → F) (vt : vtable F) (u_t mask : List F)
    (steps_per_node k : Nat) (u : F) (hu : u_t[k]? = some u) :
    ∀ (todo n : Nat) (RC : dde_reservoir F) (gen : noise_gen F) (states : mat F) (row : List F),
      states[k]? = some row →
      node_loop sqrt vt u_t mask steps_per_node k todo n (RC, gen, states)
        = (node_row_loop sqrt vt mask steps_per_node u todo n (RC, gen, row)).map
            (fun r => (r.1, r.2.1, List.set states k r.2.2))
  | 0, n, RC, gen, states, row, hrow => by
    simp only [node_loop, node_row_loop, Option.map_some']
    rw [set_of_get_some states k row hrow]
  | todo + 1, n, RC, gen, states, row, hrow => by
    simp only [node_loop, node_row_loop, sub_steps_single sqrt vt u_t mask k n u hu]
    cases sub_steps sqrt vt [u] mask 0 n steps_per_node RC gen with
    | none => rfl
    | some r =>
      obtain ⟨RC1, gen1⟩ := r
      simp only
      have hk : k < states.length := by
        rcases List.getElem?_eq_some.mp hrow with ⟨h, _⟩
        exact h
      have hset : mat.set states k n (vt.readout RC1)
          = List.set states k (List.set row n (vt.readout RC1)) := by
        simp only [mat.set, hrow]
      have hrow1 : (List.set states k (List.set row n (vt.readout RC1)))[k]?
          = some (List.set row n (vt.readout RC1)) := by
        rw [List.getElem?_set_self hk]
      rw [hset, node_loop_eq_row sqrt vt u_t mask steps_per_node k u hu todo (n + 1) RC1 gen1 _ _
        hrow1]
      simp only [List.set_set]

theorem time_loop_eq_rows (sqrt : F → F) (vt : vtable F) (mask : List F)
    (steps_per_node num_nodes : Nat) :
    ∀ (us : List F) (B : List (List F)) (U0 U1 : List F) (A C : List (List F))
      (RC : dde_reservoir F) (gen : noise_gen F), us.length = B.length → U0.length = A.length →
      time_loop sqrt vt (U0 ++ (us ++ U1)) mask steps_per_node num_nodes us.length A.length
          (RC, gen, A ++ (B ++ C))
        = (rows_loop sqrt vt mask steps_per_node num_nodes us B RC gen).map
            (fun r => (r.1, r.2.1, A ++ (r.2.2 ++ C)))
  | [], [], U0, U1, A, C, RC, gen, _, _ => by
    simp [time_loop, rows_loop]
  | [], _ :: _, _, _, _, _, _, _, h, _ => by simp at h
  | _ :: _, [], _, _, _, _, _, _, h, _ => by simp at h
  | u :: us, row :: B, U0, U1, A, C, RC, gen, hB, hA => by
    have hu : (U0 ++ (u :: us ++ U1))[A.length]? = some u := by
      rw [← hA]
      exact get_append_cons U0 u (us ++ U1)
    have hrow : (A ++ (row :: B ++ C))[A.length]? = some row :=
      get_append_cons A row (B ++ C)
    simp only [List.length_cons, time_loop, rows_loop]
    rw [node_loop_eq_row sqrt vt _ mask steps_per_node A.length u hu num_nodes 0 RC gen _ row hrow]
    cases node_row_loop sqrt vt mask steps_per_node u num_nodes 0 (RC, gen, row) with
    | none => rfl
    | some r =>
      obtain ⟨RC1, gen1, row1⟩ := r
      simp only [Option.map_some']
      have hset : List.set (A ++ (row :: B ++ C)) A.length row1
          = (A ++ [row1]) ++ (B ++ C) := by
        rw [List.cons_append, set_append_cons]
        simp
      have hU : U0 ++ (u :: us ++ U1) = (U0 ++ [u]) ++ (us ++ U1) := by simp
      have hlen : A.length + 1 = (A ++ [row1]).length := by simp
      have hB1 : us.length = B.length := by simpa using hB
      have hA1 : (U0 ++ [u]).length = (A ++ [row1]).length := by simp [hA]
      rw [hset, hU, hlen,
        time_loop_eq_rows sqrt vt mask steps_per_node num_nodes us B (U0 ++ [u]) U1
          (A ++ [row1]) C RC1 gen1 hB1 hA1]
      cases rows_loop sqrt vt mask steps_per_node num_nodes us B RC1 gen1 with
      | none => rfl
      | some r2 => simp

theorem integrate_eq_rows (sqrt : F → F) (vt : vtable F) (RC : dde_reservoir F)
    (gen : noise_gen F) (u_t mask : List F) :
    integrate_dde_reservoir sqrt vt RC gen u_t mask
      = (rows_loop sqrt vt mask (to_int (RC.theta / RC.integ_step)).toNat RC.num_nodes.toNat u_t
          (mat.ones u_t.length (RC.num_nodes + 1).toNat) RC gen).map
          (fun r => (r.2.2, r.1, r.2.1)) := by
  have h := time_loop_eq_rows sqrt vt mask (to_int (RC.theta / RC.integ_step)).toNat
    RC.num_nodes.toNat u_t (mat.ones u_t.length (RC.num_nodes + 1).toNat) [] [] [] [] RC gen
    (by simp [mat.ones]) rfl
  simp only [List.append_nil, List.nil_append, List.length_nil] at h
  simp only [integrate_dde_reservoir, h]
  cases rows_loop sqrt vt mask (to_int (RC.theta / RC.integ_step)).toNat RC.num_nodes.toNat u_t
      (mat.ones u_t.length (RC.num_nodes + 1).toNat) RC gen with
  | none => rfl
  | some r => rfl

theorem same_parameters_refl (RC : dde_reservoir F) : same_parameters RC RC :=
  ⟨rfl, rfl, rfl, rfl, rfl, rfl⟩

theorem same_parameters_trans {a b c : dde_reservoir F} (h1 : same_parameters a b)
    (h2 : same_parameters b c) : same_parameters a c :=
  ⟨h1.1.trans h2.1, h1.2.1.trans h2.2.1, h1.2.2.1.trans h2.2.2.1,
    h1.2.2.2.1.trans h2.2.2.2.1, h1.2.2.2.2.1.trans h2.2.2.2.2.1,
    h1.2.2.2.2.2.trans h2.2.2.2.2.2⟩

theorem euler_maruyama_parameters (sqrt : F → F) (vt : vtable F) (RC RC1 : dde_reservoir F)
    (gen gen1 : noise_gen F) (u_t : F)
    (h : RC.euler_maruyama sqrt vt gen u_t = some (RC1, gen1)) : same_parameters RC RC1 := by
  cases hz : RC.z_tau with
  | nil =>
    rw [euler_maruyama_nil sqrt vt RC gen u_t hz] at h
    cases h
  | cons d rest =>
    rw [euler_maruyama_cons sqrt vt RC gen u_t d rest hz] at h
    cases h
    exact ⟨rfl, rfl, rfl, rfl, rfl, rfl⟩

theorem sub_steps_parameters (sqrt : F → F) (vt : vtable F) (u_t mask : List F) (k n : Nat) :
    ∀ (steps : Nat) (RC RC1 : dde_reservoir F) (gen gen1 : noise_gen F),
      sub_steps sqrt vt u_t mask k n steps RC gen = some (RC1, gen1) → same_parameters RC RC1
  | 0, RC, RC1, gen, gen1, h => by
    simp only [sub_steps, Option.some.injEq, Prod.mk.injEq] at h
    rw [h.1]
    exact same_parameters_refl RC1
  | steps + 1, RC, RC1, gen, gen1, h => by
    simp only [sub_steps] at h
    cases hm : mask[n]? with
    | none => simp [hm] at h
    | some m =>
      cases hu : u_t[k]? with
      | none => simp [hm, hu] at h
      | some u =>
        simp only [hm, hu] at h
        cases he : RC.euler_maruyama sqrt vt gen (step_input m u) with
        | none => simp [he] at h
        | some r =>
          obtain ⟨RC2, gen2⟩ := r
          simp only [he] at h
          exact same_parameters_trans (euler_maruyama_parameters sqrt vt RC RC2 gen gen2 _ he)
            (sub_steps_parameters sqrt vt u_t mask k n steps RC2 RC1 gen2 gen1 h)

theorem node_row_loop_parameters (sqrt : F → F) (vt : vtable F) (mask : List F)
    (steps_per_node : Nat) (u : F) :
    ∀ (todo n : Nat) (RC RC1 : dde_reservoir F) (gen gen1 : noise_gen F) (row row1 : List F),
      node_row_loop sqrt vt mask steps_per_node u todo n (RC, gen, row) = some (RC1, gen1, row1) →
      same_parameters RC RC1
  | 0, n, RC, RC1, gen, gen1, row, row1, h => by
    simp only [node_row_loop, Option.some.injEq, Prod.mk.injEq] at h
    rw [h.1]
    exact same_parameters_refl RC1
  | todo + 1, n, RC, RC1, gen, gen1, row, row1, h => by
    simp only [node_row_loop] at h
    cases hs : sub_steps sqrt vt [u] mask 0 n steps_per_node RC gen with
    | none => simp [hs] at h
    | some r =>
      obtain ⟨RC2, gen2⟩ := r
      simp only [hs] at h
      exact same_parameters_trans (sub_steps_parameters sqrt vt [u] mask 0 n _ RC RC2 gen gen2 hs)
        (node_row_loop_parameters sqrt vt mask steps_per_node u todo (n + 1) RC2 RC1 gen2 gen1 _ _
          h)

theorem rows_loop_parameters (sqrt : F → F) (vt : vtable F) (mask : List F)
    (steps_per_node num_nodes : Nat) :
    ∀ (us : List F) (rows : List (List F)) (RC RC1 : dde_reservoir F) (gen gen1 : noise_gen F)
      (rows1 : List (List F)),
      rows_loop sqrt vt mask steps_per_node num_nodes us rows RC gen = some (RC1, gen1, rows1) →
      same_parameters RC RC1
  | [], rows, RC, RC1, gen, gen1, rows1, h => by
    simp only [rows_loop, Option.some.injEq, Prod.mk.injEq] at h
    rw [h.1]
    exact same_parameters_refl RC1
  | _ :: _, [], RC, RC1, gen, gen1, rows1, h => by
    simp only [rows_loop, Option.some.injEq, Prod.mk.injEq] at h
    rw [h.1]
    exact same_parameters_refl RC1
  | u :: us, row :: rows, RC, RC1, gen, gen1, rows1, h => by
    simp only [rows_loop] at h
    cases hn : node_row_loop sqrt vt mask steps_per_node u num_nodes 0 (RC, gen, row) with
    | none => simp [hn] at h
    | some r =>
      obtain ⟨RC2, gen2, row2⟩ := r
      simp only [hn] at h
      cases hr : rows_loop sqrt vt mask steps_per_node num_nodes us rows RC2 gen2 with
      | none => simp [hr] at h
      | some r3 =>
        obtain ⟨RC3, gen3, rows3⟩ := r3
        simp only [hr, Option.some.injEq, Prod.mk.injEq] at h
        rw [← h.1]
        exact same_parameters_trans
          (node_row_loop_parameters sqrt vt mask steps_per_node u num_nodes 0 RC RC2 gen gen2 _ _ hn)
          (rows_loop_parameters sqrt vt mask steps_per_node num_nodes us rows RC2 RC3 gen2 gen3 _
            hr)

theorem rows_loop_append (sqrt : F → F) (vt : vtable F) (mask : List F)
    (steps_per_node num_nodes : Nat) (u2 : List F) (B2 : List (List F)) :
    ∀ (u1 : List F) (B1 : List (List F)) (RC : dde_reservoir F) (gen : noise_gen F),
      u1.length = B1.length →
      rows_loop sqrt vt mask steps_per_node num_nodes (u1 ++ u2) (B1 ++ B2) RC gen
        = (rows_loop sqrt vt mask steps_per_node num_nodes u1 B1 RC gen).bind (fun r1 =>
            (rows_loop sqrt vt mask steps_per_node num_nodes u2 B2 r1.1 r1.2.1).map
              (fun r2 => (r2.1, r2.2.1, r1.2.2 ++ r2.2.2)))
  | [], [], RC, gen, _ => by
    simp only [List.nil_append, rows_loop, Option.some_bind]
    cases rows_loop sqrt vt mask steps_per_node num_nodes u2 B2 RC gen with
    | none => rfl
    | some r => rfl
  | [], _ :: _, _, _, h => by simp at h
  | _ :: _, [], _, _, h => by simp at h
  | u :: u1, row :: B1, RC, gen, h => by
    simp only [List.cons_append, rows_loop]
    cases node_row_loop sqrt vt mask steps_per_node u num_nodes 0 (RC, gen, row) with
    | none => rfl
    | some r =>
      obtain ⟨RC1, gen1, row1⟩ := r
      simp only [List.append_eq]
      rw [rows_loop_append sqrt vt mask steps_per_node num_nodes u2 B2 u1 B1 RC1 gen1
        (by simpa using h)]
      cases rows_loop sqrt vt mask steps_per_node num_nodes u1 B1 RC1 gen1 with
      | none => rfl
      | some r1 =>
        simp only [Option.some_bind]
        cases rows_loop sqrt vt mask steps_per_node num_nodes u2 B2 r1.1 r1.2.1 with
        | none => rfl
        | some r2 => rfl

theorem run_steps_append (sqrt : F → F) (vt : vtable F) (b : List F) :
    ∀ (a : List F) (RC : dde_reservoir F) (gen : noise_gen F),
      run_steps sqrt vt (a ++ b) RC gen
        = (run_steps sqrt vt a RC gen).bind (fun r1 =>
            (run_steps sqrt vt b r1.2.1 r1.2.2).map (fun r2 => (r1.1 ++ r2.1, r2.2.1, r2.2.2)))
  | [], RC, gen => by
    simp only [List.nil_append, run_steps, Option.some_bind]
    cases run_steps sqrt vt b RC gen with
    | none => rfl
    | some r => rfl
  | u :: a, RC, gen => by
    simp only [List.cons_append, run_steps]
    cases RC.euler_maruyama sqrt vt gen u with
    | none => rfl
    | some r =>
      obtain ⟨RC1, gen1⟩ := r
      simp only [List.append_eq]
      rw [run_steps_append sqrt vt b a RC1 gen1]
      cases run_steps sqrt vt a RC1 gen1 with
      | none => rfl
      | some r1 =>
        simp only [Option.some_bind]
        cases run_steps sqrt vt b r1.2.1 r1.2.2 with
        | none => rfl
        | some r2 => rfl

theorem run_steps_append_some (sqrt : F → F) (vt : vtable F) (a b : List F)
    (RC RC1 RC2 : dde_reservoir F) (gen gen1 gen2 : noise_gen F) (zs1 zs2 : List F)
    (h1 : run_steps sqrt vt a RC gen = some (zs1, RC1, gen1))
    (h2 : run_steps sqrt vt b RC1 gen1 = some (zs2, RC2, gen2)) :
    run_steps sqrt vt (a ++ b) RC gen = some (zs1 ++ zs2, RC2, gen2) := by
  rw [run_steps_append, h1]
  simp only [Option.some_bind, h2, Option.map_some']

theorem run_steps_nonempty (sqrt : F → F) (vt : vtable F) (inputs zs : List F)
    (RC RC1 : dde_reservoir F) (gen gen1 : noise_gen F) (hne : RC.z_tau ≠ [])
    (h : run_steps sqrt vt inputs RC gen = some (zs, RC1, gen1)) : RC1.z_tau ≠ [] := by
  obtain ⟨zs2, RC2, gen2, hrun, _, _, hsize, _, _⟩ := run_steps_spec sqrt vt inputs RC gen hne
  rw [h] at hrun
  simp only [Option.some.injEq, Prod.mk.injEq] at hrun
  rw [hrun.2.1]
  intro h0
  rw [h0] at hsize
  exact hne (List.length_eq_zero.mp hsize.symm)

theorem sub_steps_eq_run (sqrt : F → F) (vt : vtable F) (mask : List F) (n : Nat) (u m : F)
    (hm : mask[n]? = some m) :
    ∀ (steps : Nat) (RC : dde_reservoir F) (gen : noise_gen F),
      sub_steps sqrt vt [u] mask 0 n steps RC gen
        = (run_steps sqrt vt (List.replicate steps (step_input m u)) RC gen).map (fun r => r.2)
  | 0, _, _ => rfl
  | steps + 1, RC, gen => by
    simp only [sub_steps, hm, List.getElem?_cons_zero, List.replicate_succ, run_steps]
    cases RC.euler_maruyama sqrt vt gen (step_input m u) with
    | none => rfl
    | some r =>
      obtain ⟨RC1, gen1⟩ := r
      simp only
      rw [sub_steps_eq_run sqrt vt mask n u m hm steps RC1 gen1]
      cases run_steps sqrt vt (List.replicate steps (step_input m u)) RC1 gen1 with
      | none => rfl
      | some r1 => rfl

theorem node_schedule_nil (steps_per_node : Nat) (u : F) :
    node_schedule steps_per_node [] u = [] := rfl

theorem node_schedule_cons (steps_per_node : Nat) (m : F) (ms : List F) (u : F) :
    node_schedule steps_per_node (m :: ms) u
      = List.replicate steps_per_node (step_input m u) ++ node_schedule steps_per_node ms u := by
  simp [node_schedule]

theorem node_schedule_append (steps_per_node : Nat) (ms1 ms2 : List F) (u : F) :
    node_schedule steps_per_node (ms1 ++ ms2) u
      = node_schedule steps_per_node ms1 u ++ node_schedule steps_per_node ms2 u := by
  simp [node_schedule]

theorem node_schedule_length (steps_per_node : Nat) (u : F) :
    ∀ ms : List F, (node_schedule steps_per_node ms u).length = ms.length * steps_per_node
  | [] => by simp [node_schedule]
  | m :: ms => by
    rw [node_schedule_cons, List.length_append, node_schedule_length steps_per_node u ms,
      List.length_replicate, List.length_cons]
    ring

theorem schedule_cons (steps_per_node : Nat) (mask : List F) (u : F) (us : List F) :
    schedule steps_per_node mask (u :: us)
      = node_schedule steps_per_node mask u ++ schedule steps_per_node mask us := by
  simp [schedule]

theorem schedule_append (steps_per_node : Nat) (mask us1 us2 : List F) :
    schedule steps_per_node mask (us1 ++ us2)
      = schedule steps_per_node mask us1 ++ schedule steps_per_node mask us2 := by
  simp [schedule]

theorem schedule_length (steps_per_node : Nat) (mask : List F) :
    ∀ us : List F,
      (schedule steps_per_node mask us).length = us.length * (mask.length * steps_per_node)
  | [] => by simp [schedule]
  | u :: us => by
    rw [schedule_cons, List.length_append, schedule_length steps_per_node mask us,
      node_schedule_length, List.length_cons]
    ring

/-- What the loop over the virtual nodes does to a model with a non-empty delay line, the
mask entries from index `n` on being `ms`. -/
theorem node_row_loop_spec (sqrt : F → F) (vt : vtable F) (mask : List F) (steps_per_node : Nat)
    (u : F) :
    ∀ (ms : List F) (n : Nat) (RC : dde_reservoir F) (gen : noise_gen F) (row : List F),
      (∀ i, i < ms.length → mask[n + i]? = ms[i]?) → RC.z_tau ≠ [] →
      n + ms.length ≤ row.length →
      ∃ zs RC1 gen1 row1,
        node_row_loop sqrt vt mask steps_per_node u ms.length n (RC, gen, row)
          = some (RC1, gen1, row1) ∧
        run_steps sqrt vt (node_schedule steps_per_node ms u) RC gen = some (zs, RC1, gen1) ∧
        row1.length = row.length ∧
        (∀ j, j < n ∨ n + ms.length ≤ j → row1[j]? = row[j]?) ∧
        (∀ i, i < ms.length → ∃ zs2 RC2 gen2,
          run_steps sqrt vt (node_schedule steps_per_node (ms.take (i + 1)) u) RC gen
            = some (zs2, RC2, gen2) ∧
          row1[n + i]? = some (vt.readout RC2))
  | [], n, RC, gen, row, _, _, _ => by
    refine ⟨[], RC, gen, row, rfl, rfl, rfl, fun _ _ => rfl, ?_⟩
    intro i hi
    simp at hi
  | m :: ms, n, RC, gen, row, hmask, hne, hlen => by
    have hm : mask[n]? = some m := by
      have := hmask 0 (by simp)
      simpa using this
    obtain ⟨zs0, RCa, gena, hrun0, _⟩ :=
      run_steps_spec sqrt vt (List.replicate steps_per_node (step_input m u)) RC gen hne
    have hnea : RCa.z_tau ≠ [] := run_steps_nonempty sqrt vt _ zs0 RC RCa gen gena hne hrun0
    have hsub : sub_steps sqrt vt [u] mask 0 n steps_per_node RC gen = some (RCa, gena) := by
      rw [sub_steps_eq_run sqrt vt mask n u m hm, hrun0]
      rfl
    have hmask1 : ∀ i, i < ms.length → mask[n + 1 + i]? = ms[i]? := by
      intro i hi
      have := hmask (i + 1) (by simpa using hi)
      rw [List.getElem?_cons_succ] at this
      rw [← this]
      congr 1
      omega
    have hlen0 : n + (ms.length + 1) ≤ row.length := by simpa using hlen
    have hlen1 : n + 1 + ms.length ≤ (List.set row n (vt.readout RCa)).length := by
      rw [List.length_set]
      omega
    obtain ⟨zs1, RC1, gen1, row1, hloop, hrun1, hsize, hkeep, hval⟩ :=
      node_row_loop_spec sqrt vt mask steps_per_node u ms (n + 1) RCa gena
        (List.set row n (vt.readout RCa)) hmask1 hnea hlen1
    have hn : row1[n]? = some (vt.readout RCa) := by
      rw [hkeep n (Or.inl (Nat.lt_succ_self n)), List.getElem?_set_self (by omega)]
    refine ⟨zs0 ++ zs1, RC1, gen1, row1, ?_, ?_, ?_, ?_, ?_⟩
    · simp only [List.length_cons, node_row_loop, hsub]
      exact hloop
    · rw [node_schedule_cons]
      exact run_steps_append_some sqrt vt _ _ RC RCa RC1 gen gena gen1 zs0 zs1 hrun0 hrun1
    · rw [hsize, List.length_set]
    · intro j hj
      have hj1 : j < n + 1 ∨ n + 1 + ms.length ≤ j := by
        rcases hj with h | h
        · exact Or.inl (by omega)
        · exact Or.inr (by simp only [List.length_cons] at h; omega)
      have hjn : n ≠ j := by
        rcases hj with h | h
        · omega
        · simp only [List.length_cons] at h; omega
      rw [hkeep j hj1, List.getElem?_set_ne hjn]
    · intro i hi
      cases i with
      | zero =>
        refine ⟨zs0, RCa, gena, ?_, ?_⟩
        · simp only [Nat.zero_add, List.take_succ_cons, List.take_zero, node_schedule_cons,
            node_schedule_nil, List.append_nil]
          exact hrun0
        · simpa using hn
      | succ i =>
        have hi1 : i < ms.length := by simpa using hi
        obtain ⟨zs2, RC2, gen2, hrun2, hread⟩ := hval i hi1
        refine ⟨zs0 ++ zs2, RC2, gen2, ?_, ?_⟩
        · rw [List.take_succ_cons, node_schedule_cons]
          exact run_steps_append_some sqrt vt _ _ RC RCa RC2 gen gena gen2 zs0 zs2 hrun0 hrun2
        · rw [← hread]
          congr 1
          omega

/-- What the loop over the input values does to a model with a non-empty delay line, `ms`
being the first `num_nodes` mask entries and every row of the matrix having `num_nodes + 1`
entries, the last of them `1`. -/
theorem rows_loop_spec (sqrt : F → F) (vt : vtable F) (mask : List F) (steps_per_node : Nat)
    (ms : List F) (hmask : ∀ i, i < ms.length → mask[i]? = ms[i]?) :
    ∀ (us : List F) (rows : List (List F)) (RC : dde_reservoir F) (gen : noise_gen F),
      us.length = rows.length → RC.z_tau ≠ [] →
      (∀ row ∈ rows, row.length = ms.length + 1 ∧ row[ms.length]? = some 1) →
      ∃ zs RC1 gen1 rows1,
        rows_loop sqrt vt mask steps_per_node ms.length us rows RC gen
          = some (RC1, gen1, rows1) ∧
        run_steps sqrt vt (schedule steps_per_node ms us) RC gen = some (zs, RC1, gen1) ∧
        rows1.length = rows.length ∧
        (∀ row ∈ rows1, row.length = ms.length + 1 ∧ row[ms.length]? = some 1) ∧
        (∀ k n u, us[k]? = some u → n < ms.length → ∃ zs2 RC2 gen2,
          run_steps sqrt vt
              (schedule steps_per_node ms (us.take k)
                ++ node_schedule steps_per_node (ms.take (n + 1)) u) RC gen
            = some (zs2, RC2, gen2) ∧
          mat.entry rows1 k n = some (vt.readout RC2))
  | [], [], RC, gen, _, _, _ => by
    refine ⟨[], RC, gen, [], rfl, rfl, rfl, ?_, ?_⟩
    · intro row hrow
      simp at hrow
    · intro k n u hk
      simp at hk
  | [], _ :: _, _, _, h, _, _ => by simp at h
  | _ :: _, [], _, _, h, _, _ => by simp at h
  | u :: us, row :: rows, RC, gen, hlen, hne, hrows => by
    have hrow := hrows row (List.mem_cons_self row rows)
    have hmask0 : ∀ i, i < ms.length → mask[0 + i]? = ms[i]? := by
      intro i hi
      rw [Nat.zero_add]
      exact hmask i hi
    obtain ⟨zsa, RCa, gena, rowa, hnode, hruna, hsizea, hkeepa, hvala⟩ :=
      node_row_loop_spec sqrt vt mask steps_per_node u ms 0 RC gen row hmask0 hne
        (by rw [hrow.1]; omega)
    have hnea : RCa.z_tau ≠ [] := run_steps_nonempty sqrt vt _ zsa RC RCa gen gena hne hruna
    obtain ⟨zsb, RC1, gen1, rows1, hloop, hrunb, hsizeb, hshape, hvalb⟩ :=
      rows_loop_spec sqrt vt mask steps_per_node ms hmask us rows RCa gena
        (by simpa using hlen) hnea (fun r hr => hrows r (List.mem_cons_of_mem row hr))
    refine ⟨zsa ++ zsb, RC1, gen1, rowa :: rows1, ?_, ?_, ?_, ?_, ?_⟩
    · simp only [rows_loop, hnode, hloop]
    · rw [schedule_cons]
      exact run_steps_append_some sqrt vt _ _ RC RCa RC1 gen gena gen1 zsa zsb hruna hrunb
    · simp [hsizeb]
    · intro r hr
      rcases List.mem_cons.mp hr with h | h
      · subst h
        refine ⟨by rw [hsizea, hrow.1], ?_⟩
        rw [hkeepa ms.length (Or.inr (by omega)), hrow.2]
      · exact hshape r h
    · intro k n u1 hk hn
      cases k with
      | zero =>
        simp only [List.getElem?_cons_zero, Option.some.injEq] at hk
        subst hk
        obtain ⟨zs2, RC2, gen2, hrun2, hread⟩ := hvala n hn
        refine ⟨zs2, RC2, gen2, ?_, ?_⟩
        · simpa [schedule] using hrun2
        · simp only [mat.entry, List.getElem?_cons_zero]
          simpa using hread
      | succ k =>
        simp only [List.getElem?_cons_succ] at hk
        obtain ⟨zs2, RC2, gen2, hrun2, hread⟩ := hvalb k n u1 hk hn
        refine ⟨zsa ++ zs2, RC2, gen2, ?_, ?_⟩
        · rw [List.take_succ_cons, schedule_cons, List.append_assoc]
          exact run_steps_append_some sqrt vt _ _ RC RCa RC2 gen gena gen2 zsa zs2 hruna hrun2
        · simpa [mat.entry] using hread

theorem node_schedule_take (steps_per_node : Nat) (ms : List F) (u : F) (n : Nat)
    (hn : n < ms.length) (rest : List F) :
    node_schedule steps_per_node (ms.take (n + 1)) u
      = (node_schedule steps_per_node ms u ++ rest).take ((n + 1) * steps_per_node) := by
  have hsplit : node_schedule steps_per_node ms u
      = node_schedule steps_per_node (ms.take (n + 1)) u
        ++ node_schedule steps_per_node (ms.drop (n + 1)) u := by
    rw [← node_schedule_append, List.take_append_drop]
  have hlen : (node_schedule steps_per_node (ms.take (n + 1)) u).length
      = (n + 1) * steps_per_node := by
    rw [node_schedule_length, List.length_take, Nat.min_eq_left (by omega)]
  rw [hsplit, List.append_assoc, List.take_left' hlen]

theorem schedule_take (steps_per_node : Nat) (ms : List F) (n : Nat) (hn : n < ms.length) :
    ∀ (us : List F) (k : Nat) (u : F), us[k]? = some u →
      schedule steps_per_node ms (us.take k) ++ node_schedule steps_per_node (ms.take (n + 1)) u
        = (schedule steps_per_node ms us).take ((k * ms.length + n + 1) * steps_per_node)
  | [], k, u, h => by simp at h
  | u0 :: us, 0, u, h => by
    simp only [List.getElem?_cons_zero, Option.some.injEq] at h
    subst h
    rw [List.take_zero, schedule_cons, Nat.zero_mul, Nat.zero_add]
    rw [← node_schedule_take steps_per_node ms u0 n hn]
    simp [schedule]
  | u0 :: us, k + 1, u, h => by
    simp only [List.getElem?_cons_succ] at h
    have ih := schedule_take steps_per_node ms n hn us k u h
    rw [List.take_succ_cons, schedule_cons, schedule_cons, List.append_assoc, ih]
    have hsum : ((k + 1) * ms.length + n + 1) * steps_per_node
        = (node_schedule steps_per_node ms u0).length
          + (k * ms.length + n + 1) * steps_per_node := by
      rw [node_schedule_length]
      ring
    rw [hsum, List.take_append]

/-- What `integrate_dde_reservoir` does to a model with a non-empty delay line, a non-negative
`num_nodes` and a mask of at least `num_nodes` entries. -/
theorem integrate_spec (sqrt : F → F) (vt : vtable F) (RC : dde_reservoir F)
    (gen : noise_gen F) (u_t mask : List F) (hnodes : 0 ≤ RC.num_nodes)
    (hmask : RC.num_nodes.toNat ≤ mask.length) (hne : RC.z_tau ≠ []) :
    ∃ zs S RC1 gen1,
      integrate_dde_reservoir sqrt vt RC gen u_t mask = some (S, RC1, gen1) ∧
      run_steps sqrt vt
          (schedule (to_int (RC.theta / RC.integ_step)).toNat (mask.take RC.num_nodes.toNat) u_t)
          RC gen
        = some (zs, RC1, gen1) ∧
      S.length = u_t.length ∧
      (∀ row ∈ S, row.length = RC.num_nodes.toNat + 1 ∧ row[RC.num_nodes.toNat]? = some 1) ∧
      (∀ k n u, u_t[k]? = some u → n < RC.num_nodes.toNat → ∃ zs2 RC2 gen2,
        run_steps sqrt vt
            ((schedule (to_int (RC.theta / RC.integ_step)).toNat (mask.take RC.num_nodes.toNat)
                u_t).take
              ((k * RC.num_nodes.toNat + n + 1) * (to_int (RC.theta / RC.integ_step)).toNat))
            RC gen
          = some (zs2, RC2, gen2) ∧
        mat.entry S k n = some (vt.readout RC2)) := by
  have hlen : (mask.take RC.num_nodes.toNat).length = RC.num_nodes.toNat := by
    rw [List.length_take, Nat.min_eq_left hmask]
  have hcols : (RC.num_nodes + 1).toNat = RC.num_nodes.toNat + 1 := by omega
  have hms : ∀ i, i < (mask.take RC.num_nodes.toNat).length →
      mask[i]? = (mask.take RC.num_nodes.toNat)[i]? := by
    intro i hi
    rw [hlen] at hi
    rw [List.getElem?_take_of_lt hi]
  have hrows : ∀ row ∈ (mat.ones u_t.length (RC.num_nodes + 1).toNat : mat F),
      row.length = (mask.take RC.num_nodes.toNat).length + 1
        ∧ row[(mask.take RC.num_nodes.toNat).length]? = some 1 := by
    intro row hrow
    rw [mat.ones] at hrow
    rw [List.eq_of_mem_replicate hrow, hlen, hcols]
    refine ⟨List.length_replicate _ _, ?_⟩
    rw [List.getElem?_replicate_of_lt (Nat.lt_succ_self _)]
  obtain ⟨zs, RC1, gen1, rows1, hloop, hrun, hsize, hshape, hval⟩ :=
    rows_loop_spec sqrt vt mask (to_int (RC.theta / RC.integ_step)).toNat
      (mask.take RC.num_nodes.toNat) hms u_t (mat.ones u_t.length (RC.num_nodes + 1).toNat) RC gen
      (by simp [mat.ones]) hne hrows
  rw [hlen] at hloop hshape hval
  refine ⟨zs, rows1, RC1, gen1, ?_, hrun, ?_, hshape, ?_⟩
  · rw [integrate_eq_rows, hloop]
    rfl
  · rw [hsize]
    simp [mat.ones]
  · intro k n u hk hn
    obtain ⟨zs2, RC2, gen2, hrun2, hread⟩ := hval k n u hk hn
    refine ⟨zs2, RC2, gen2, ?_, hread⟩
    rw [← hrun2]
    congr 1
    have := schedule_take (to_int (RC.theta / RC.integ_step)).toNat
      (mask.take RC.num_nodes.toNat) n (by rw [hlen]; exact hn) u_t k u hk
    rw [hlen] at this
    exact this.symm

theorem mat_ones_add (a b cols : Nat) :
    (mat.ones (a + b) cols : mat F) = mat.ones a cols ++ mat.ones b cols := by
  simp only [mat.ones, List.replicate_add]

theorem mat_ones_length (a cols : Nat) : (mat.ones a cols : mat F).length = a := by
  simp [mat.ones]

theorem integrate_concat_eq (sqrt : F → F) (vt : vtable F) (RC : dde_reservoir F)
    (gen : noise_gen F) (u1 u2 mask : List F) :
    integrate_dde_reservoir sqrt vt RC gen (u1 ++ u2) mask
      = (integrate_dde_reservoir sqrt vt RC gen u1 mask).bind (fun r1 =>
          (integrate_dde_reservoir sqrt vt r1.2.1 r1.2.2 u2 mask).map
            (fun r2 => (r1.1 ++ r2.1, r2.2.1, r2.2.2))) := by
  rw [integrate_eq_rows, integrate_eq_rows sqrt vt RC gen u1, List.length_append, mat_ones_add,
    rows_loop_append sqrt vt mask _ _ u2 _ u1 _ RC gen (mat_ones_length _ _).symm]
  cases h1 : rows_loop sqrt vt mask (to_int (RC.theta / RC.integ_step)).toNat RC.num_nodes.toNat
      u1 (mat.ones u1.length (RC.num_nodes + 1).toNat) RC gen with
  | none => rfl
  | some r1 =>
    obtain ⟨RC1, gen1, B1⟩ := r1
    obtain ⟨_, hn, ht, hi, _, _⟩ := rows_loop_parameters sqrt vt mask _ _ u1 _ RC RC1 gen gen1 B1 h1
    simp only [Option.some_bind, Option.map_some']
    rw [integrate_eq_rows, ← hn, ← ht, ← hi]
    cases rows_loop sqrt vt mask (to_int (RC.theta / RC.integ_step)).toNat RC.num_nodes.toNat
        u2 (mat.ones u2.length (RC.num_nodes + 1).toNat) RC1 gen1 with
    | none => rfl
    | some r2 => rfl

theorem integrate_of_empty_line (sqrt : F → F) (vt : vtable F) (RC : dde_reservoir F)
    (gen : noise_gen F) (u m : F) (us ms : List F) (steps nodes : Nat) (hz : RC.z_tau = [])
    (hsteps : (to_int (RC.theta / RC.integ_step)).toNat = steps + 1)
    (hnodes : RC.num_nodes.toNat = nodes + 1) :
    integrate_dde_reservoir sqrt vt RC gen (u :: us) (m :: ms) = none := by
  rw [integrate_eq_rows, hsteps, hnodes]
  simp [rows_loop, node_row_loop, sub_steps, mat.ones, List.replicate_succ,
    euler_maruyama_nil _ _ _ _ _ hz]

theorem integrate_of_empty_mask (sqrt : F → F) (vt : vtable F) (RC : dde_reservoir F)
    (gen : noise_gen F) (u : F) (us : List F) (steps nodes : Nat)
    (hsteps : (to_int (RC.theta / RC.integ_step)).toNat = steps + 1)
    (hnodes : RC.num_nodes.toNat = nodes + 1) :
    integrate_dde_reservoir sqrt vt RC gen (u :: us) [] = none := by
  rw [integrate_eq_rows, hsteps, hnodes]
  simp [rows_loop, node_row_loop, sub_steps, mat.ones, List.replicate_succ]

theorem integrate_short_delay :
    (short_delay_input : Ikeda ℚ).init_delay.z_tau = [] ∧
    integrate_dde_reservoir (fun x => x) ((short_delay_input : Ikeda ℚ).init_delay.vtable (fun x => x))
      (short_delay_input : Ikeda ℚ).init_delay.todde_reservoir (fun _ => 0) [1] [1] = none := by
  have hc : cpp_int ((1 : ℚ) / 2 / 1) = 0 := by
    rw [cpp_int_of_nonneg (by norm_num) (by norm_num)]; norm_num
  have hc1 : cpp_int ((1 : ℚ) / 1) = 1 := by
    rw [cpp_int_of_nonneg (by norm_num) (by norm_num)]; norm_num
  have hz : (short_delay_input : Ikeda ℚ).init_delay.z_tau = [] := by
    show List.replicate (cpp_int ((1 : ℚ) / 2 / 1)).toNat _ = []
    rw [hc]
    rfl
  refine ⟨hz, ?_⟩
  refine integrate_of_empty_line _ _ _ _ 1 1 [] [] 0 0 hz ?_ rfl
  show (cpp_int ((1 : ℚ) / 1)).toNat = 0 + 1
  rw [hc1]
  rfl

theorem integrate_empty_mask :
    (two_node_input : Ikeda ℚ).z_tau ≠ [] ∧
    integrate_dde_reservoir (fun x => x) ((two_node_input : Ikeda ℚ).vtable (fun x => x))
      (two_node_input : Ikeda ℚ).todde_reservoir (fun _ => 0) [1] [] = none := by
  have hc : cpp_int ((3 : ℚ) / 1) = 3 := by
    rw [cpp_int_of_nonneg (by norm_num) (by norm_num)]; norm_num
  refine ⟨by simp [two_node_input], ?_⟩
  refine integrate_of_empty_mask _ _ _ _ 1 [] 2 1 ?_ rfl
  show (cpp_int ((3 : ℚ) / 1)).toNat = 2 + 1
  rw [hc]
  rfl

/-- C1 (as stated, refuted): a model with `delay = 0.5`, `integ_step = 1` has an empty delay
line after `init_delay()`, and `integrate_dde_reservoir` on it with a one-element input and mask
reads `z_tau[0]` outside the delay line instead of returning a matrix; a model with two nodes
and an empty mask reads `m_ptr[0]` outside the mask. -/
theorem integrate_no_matrix :
    0 < (short_delay_input : Ikeda ℚ).delay ∧
    0 < (short_delay_input : Ikeda ℚ).integ_step ∧
    (short_delay_input : Ikeda ℚ).init_delay.z_tau = [] ∧
    integrate_dde_reservoir (fun x => x)
      ((short_delay_input : Ikeda ℚ).init_delay.vtable (fun x => x))
      (short_delay_input : Ikeda ℚ).init_delay.todde_reservoir (fun _ => 0) [1] [1] = none ∧
    (two_node_input : Ikeda ℚ).z_tau ≠ [] ∧
    integrate_dde_reservoir (fun x => x) ((two_node_input : Ikeda ℚ).vtable (fun x => x))
      (two_node_input : Ikeda ℚ).todde_reservoir (fun _ => 0) [1] [] = none := by
  refine ⟨?_, ?_, integrate_short_delay.1, integrate_short_delay.2, integrate_empty_mask.1,
    integrate_empty_mask.2⟩
  · show (0 : ℚ) < 1 / 2
    norm_num
  · show (0 : ℚ) < 1
    norm_num

/-- C1 (amended): for every model with a non-empty delay line and `num_nodes ≥ 0`, every input
sequence and every mask with at least `num_nodes` entries, `integrate_dde_reservoir` returns a
matrix with `len(seq)` rows and `num_nodes + 1` columns whose entry in the last column (index
`num_nodes`) is `1` in every row; this includes the empty sequence and `num_nodes = 0`. -/
theorem integrate_shape (sqrt : F → F) (vt : vtable F) (RC : dde_reservoir F)
    (gen : noise_gen F) (u_t mask : List F) (hnodes : 0 ≤ RC.num_nodes)
    (hmask : RC.num_nodes ≤ (mask.length : Int)) (hne : RC.z_tau ≠ []) :
    ∃ S RC1 gen1,
      integrate_dde_reservoir sqrt vt RC gen u_t mask = some (S, RC1, gen1) ∧
      S.length = u_t.length ∧
      ∀ row ∈ S, (row.length : Int) = RC.num_nodes + 1 ∧ row[RC.num_nodes.toNat]? = some 1 := by
  obtain ⟨_, S, RC1, gen1, hrun, _, hrows, hshape, _⟩ :=
    integrate_spec sqrt vt RC gen u_t mask hnodes (by omega) hne
  refine ⟨S, RC1, gen1, hrun, hrows, ?_⟩
  intro row hrow
  obtain ⟨h1, h2⟩ := hshape row hrow
  refine ⟨?_, h2⟩
  rw [h1]
  omega

theorem integrate_shape_witness :
    ∃ S RC1 gen1,
      integrate_dde_reservoir (fun x => x) ((two_node_input : Ikeda ℚ).vtable (fun x => x))
        (two_node_input : Ikeda ℚ).todde_reservoir (fun _ => 0) [1, 2] [1 / 2, -1 / 2]
        = some (S, RC1, gen1) ∧
      S.length = [(1 : ℚ), 2].length ∧
      ∀ row ∈ S, (row.length : Int) = (two_node_input : Ikeda ℚ).num_nodes + 1 ∧
        row[(two_node_input : Ikeda ℚ).num_nodes.toNat]? = some 1 :=
  integrate_shape (fun x => x) ((two_node_input : Ikeda ℚ).vtable (fun x => x))
    (two_node_input : Ikeda ℚ).todde_reservoir (fun _ => 0) [1, 2] [1 / 2, -1 / 2]
    (by decide) (by decide) (by simp [two_node_input])

/-- C8: `integrate_dde_reservoir` on `u1 ++ u2` does what the call on `u1` followed by the call on
`u2` from the model and noise generator left by the first call does: the two ways fail together,
and otherwise the matrix of the single call is the rows of the first matrix followed by the rows
of the second, and the final model (`z_t`, delay line) and noise generator agree.  On a model
with a non-empty delay line, `num_nodes ≥ 0` and a mask of at least `num_nodes` entries all
three calls return. -/
theorem integrate_append (sqrt : F → F) (vt : vtable F) (RC : dde_reservoir F)
    (gen : noise_gen F) (u1 u2 mask : List F) :
    integrate_dde_reservoir sqrt vt RC gen (u1 ++ u2) mask
        = (integrate_dde_reservoir sqrt vt RC gen u1 mask).bind (fun r1 =>
            (integrate_dde_reservoir sqrt vt r1.2.1 r1.2.2 u2 mask).map
              (fun r2 => (r1.1 ++ r2.1, r2.2.1, r2.2.2))) ∧
      (0 ≤ RC.num_nodes → RC.num_nodes ≤ (mask.length : Int) → RC.z_tau ≠ [] →
        ∃ S1 RC1 gen1 S2 RC2 gen2,
          integrate_dde_reservoir sqrt vt RC gen u1 mask = some (S1, RC1, gen1) ∧
          integrate_dde_reservoir sqrt vt RC1 gen1 u2 mask = some (S2, RC2, gen2) ∧
          integrate_dde_reservoir sqrt vt RC gen (u1 ++ u2) mask = some (S1 ++ S2, RC2, gen2)) := by
  refine ⟨integrate_concat_eq sqrt vt RC gen u1 u2 mask, ?_⟩
  intro hnodes hmask hne
  obtain ⟨zs1, S1, RC1, gen1, hint1, hrun1, _⟩ :=
    integrate_spec sqrt vt RC gen u1 mask hnodes (by omega) hne
  have hne1 : RC1.z_tau ≠ [] := run_steps_nonempty sqrt vt _ zs1 RC RC1 gen gen1 hne hrun1
  have hpar : RC.num_nodes = RC1.num_nodes := by
    rw [integrate_eq_rows] at hint1
    cases h1 : rows_loop sqrt vt mask (to_int (RC.theta / RC.integ_step)).toNat
        RC.num_nodes.toNat u1 (mat.ones u1.length (RC.num_nodes + 1).toNat) RC gen with
    | none => simp [h1] at hint1
    | some r1 =>
      obtain ⟨RCa, gena, Ba⟩ := r1
      have hp := rows_loop_parameters sqrt vt mask _ _ u1 _ RC RCa gen gena Ba h1
      simp only [h1, Option.map_some', Option.some.injEq, Prod.mk.injEq] at hint1
      rw [← hint1.2.1]
      exact hp.2.1
  obtain ⟨_, S2, RC2, gen2, hint2, _⟩ :=
    integrate_spec sqrt vt RC1 gen1 u2 mask (by omega) (by omega) hne1
  refine ⟨S1, RC1, gen1, S2, RC2, gen2, hint1, hint2, ?_⟩
  rw [integrate_concat_eq, hint1]
  simp only [Option.some_bind, hint2, Option.map_some']

theorem integrate_append_witness :
    ∃ S1 RC1 gen1 S2 RC2 gen2,
      integrate_dde_reservoir (fun x => x) ((two_node_input : Ikeda ℚ).vtable (fun x => x))
        (two_node_input : Ikeda ℚ).todde_reservoir (fun _ => 0) [1, 2] [1 / 2, -1 / 2]
        = some (S1, RC1, gen1) ∧
      integrate_dde_reservoir (fun x => x) ((two_node_input : Ikeda ℚ).vtable (fun x => x))
        RC1 gen1 [3] [1 / 2, -1 / 2] = some (S2, RC2, gen2) ∧
      integrate_dde_reservoir (fun x => x) ((two_node_input : Ikeda ℚ).vtable (fun x => x))
        (two_node_input : Ikeda ℚ).todde_reservoir (fun _ => 0) ([1, 2] ++ [3]) [1 / 2, -1 / 2]
        = some (S1 ++ S2, RC2, gen2) :=
  (integrate_append (fun x => x) ((two_node_input : Ikeda ℚ).vtable (fun x => x))
    (two_node_input : Ikeda ℚ).todde_reservoir (fun _ => 0) [1, 2] [3] [1 / 2, -1 / 2]).2
    (by decide) (by decide) (by simp [two_node_input])

theorem node_schedule_get (steps_per_node : Nat) (u : F) (rest : List F) :
    ∀ (ms : List F) (n i : Nat) (m : F), ms[n]? = some m → i < steps_per_node →
      (node_schedule steps_per_node ms u ++ rest)[n * steps_per_node + i]? = some (step_input m u)
  | [], n, i, m, h, _ => by simp at h
  | m0 :: ms, 0, i, m, h, hi => by
    simp only [List.getElem?_cons_zero, Option.some.injEq] at h
    subst h
    rw [node_schedule_cons, List.append_assoc, Nat.zero_mul, Nat.zero_add,
      List.getElem?_append_left (by simpa using hi)]
    exact List.getElem?_replicate_of_lt hi
  | m0 :: ms, n + 1, i, m, h, hi => by
    simp only [List.getElem?_cons_succ] at h
    have ih := node_schedule_get steps_per_node u rest ms n i m h hi
    have hidx : (n + 1) * steps_per_node + i
        = (List.replicate steps_per_node (step_input m0 u)).length + (n * steps_per_node + i) := by
      rw [List.length_replicate]
      ring
    rw [node_schedule_cons, List.append_assoc, hidx,
      List.getElem?_append_right (Nat.le_add_right _ _), Nat.add_sub_cancel_left]
    exact ih

theorem schedule_get (steps_per_node : Nat) (ms : List F) (n i : Nat) (m : F)
    (hm : ms[n]? = some m) (hi : i < steps_per_node) :
    ∀ (us : List F) (k : Nat) (u : F), us[k]? = some u →
      (schedule steps_per_node ms us)[(k * ms.length + n) * steps_per_node + i]? = some (step_input m u)
  | [], k, u, h => by simp at h
  | u0 :: us, 0, u, h => by
    simp only [List.getElem?_cons_zero, Option.some.injEq] at h
    subst h
    rw [schedule_cons, Nat.zero_mul, Nat.zero_add]
    exact node_schedule_get steps_per_node u0 _ ms n i m hm hi
  | u0 :: us, k + 1, u, h => by
    simp only [List.getElem?_cons_succ] at h
    have ih := schedule_get steps_per_node ms n i m hm hi us k u h
    have hidx : ((k + 1) * ms.length + n) * steps_per_node + i
        = (node_schedule steps_per_node ms u0).length
          + ((k * ms.length + n) * steps_per_node + i) := by
      rw [node_schedule_length]
      ring
    rw [schedule_cons, hidx, List.getElem?_append_right (Nat.le_add_right _ _),
      Nat.add_sub_cancel_left]
    exact ih


theorem integrate_noise_consumed (sqrt : F → F) (vt : vtable F) (RC : dde_reservoir F)
    (gen : noise_gen F) (u_t mask : List F) (hnodes : 0 ≤ RC.num_nodes)
    (hmask : RC.num_nodes.toNat = mask.length) (hne : RC.z_tau ≠ []) :
    (integrate_dde_reservoir sqrt vt RC gen u_t mask).map (fun r => r.2.2 0)
      = some (gen (u_t.length * (mask.length * (to_int (RC.theta / RC.integ_step)).toNat))) := by
  obtain ⟨zs, S, RC1, gen1, hint, hrun, _⟩ :=
    integrate_spec sqrt vt RC gen u_t mask hnodes (by omega) hne
  obtain ⟨zs3, RC3, gen3, hrun3, _, _, _, _, hgen⟩ :=
    run_steps_spec sqrt vt
      (schedule (to_int (RC.theta / RC.integ_step)).toNat (mask.take RC.num_nodes.toNat) u_t)
      RC gen hne
  rw [hrun] at hrun3
  simp only [Option.some.injEq, Prod.mk.injEq] at hrun3
  rw [hint, Option.map_some', hrun3.2.2, hgen, schedule_length, hmask, List.take_length]
  rfl

end loops

section binary32_steps

open float_arith

theorem float_steps_eq (RC : dde_reservoir ieee_value) (htheta : 0 < RC.theta.val)
    (hstep : 0 < RC.integ_step.val)
    (hrange : f32_round (RC.theta.val / RC.integ_step.val) < 2 ^ 31) :
    (to_int (RC.theta / RC.integ_step)).toNat = float_steps RC := by
  have hq : 0 ≤ f32_round (RC.theta.val / RC.integ_step.val) :=
    fp_round_nonneg 24 (-149) (le_of_lt (div_pos htheta hstep))
  rw [ieee_to_int, ieee_div_val, cpp_int_of_nonneg hq hrange]
  rfl

theorem to_int_of_quotient (RC : dde_reservoir ieee_value) (t s : ℚ) (ht : RC.theta = ⟨t⟩)
    (hs : RC.integ_step = ⟨s⟩) :
    to_int (RC.theta / RC.integ_step) = cpp_int (f32_round (t / s)) := by
  rw [ieee_to_int, ieee_div_val, ht, hs]

/-- C5 (as stated, refuted): in binary32, with `theta = 7`, `integ_step = 4`, one node, a
one-element mask and a one-element input, `round(theta / integ_step)` is two, yet
`integrate_dde_reservoir` makes one call of `euler_maruyama` (the noise sample left next is
sample 1, where two calls leave sample 2); on the model with `delay = 0.5`, `integ_step = 1`,
`theta = 1` the first call reads outside the empty delay line, so that no entry is returned; and
with `theta = 2^32`, `integ_step = 1` the quotient is outside the range of `int`, so that the
number of calls is not `round(theta / integ_step)`. -/
theorem integrate_steps_ne_round :
    0 < truncated_theta_input.theta.val ∧
    0 < truncated_theta_input.integ_step.val ∧
    (([⟨1⟩] : List ieee_value).length : Int) = truncated_theta_input.num_nodes ∧
    round (truncated_theta_input.theta.val / truncated_theta_input.integ_step.val) = 2 ∧
    round (truncated_theta_input.theta / truncated_theta_input.integ_step).val = 2 ∧
    (integrate_dde_reservoir (fun x => x) (truncated_theta_input.vtable (fun x => x))
        truncated_theta_input.todde_reservoir (fun i => ⟨i⟩) [⟨1⟩] [⟨1⟩]).map
        (fun r => r.2.2 0) = some ⟨1⟩ ∧
    (run_steps (fun x => x) (truncated_theta_input.vtable (fun x => x))
        (schedule 2 [⟨1⟩] [⟨1⟩]) truncated_theta_input.todde_reservoir
        (fun i => ⟨i⟩)).map (fun r => r.2.2 0) = some ⟨2⟩ ∧
    0 < short_delay_ieee.init_delay.theta.val ∧
    0 < short_delay_ieee.init_delay.integ_step.val ∧
    (([⟨1⟩] : List ieee_value).length : Int) = short_delay_ieee.init_delay.num_nodes ∧
    short_delay_ieee.init_delay.z_tau = [] ∧
    integrate_dde_reservoir (fun x => x) (short_delay_ieee.init_delay.vtable (fun x => x))
      short_delay_ieee.init_delay.todde_reservoir (fun _ => ⟨0⟩) [⟨1⟩] [⟨1⟩] = none ∧
    0 < wide_theta_input.theta.val ∧
    0 < wide_theta_input.integ_step.val ∧
    round (wide_theta_input.theta.val / wide_theta_input.integ_step.val) = 4294967296 ∧
    (integrate_dde_reservoir (fun x => x) (wide_theta_input.vtable (fun x => x))
        wide_theta_input.todde_reservoir (fun i => ⟨i⟩) [⟨1⟩] [⟨1⟩]).map
        (fun r => r.2.2 0) ≠ some ⟨4294967296⟩ := by
  have ht : truncated_theta_input.theta = ⟨7⟩ := rfl
  have hi : truncated_theta_input.integ_step = ⟨4⟩ := rfl
  have hn : truncated_theta_input.num_nodes = 1 := rfl
  have hz : truncated_theta_input.z_tau = [⟨1 / 2⟩, ⟨1 / 4⟩] := rfl
  have hsteps : to_int (truncated_theta_input.theta / truncated_theta_input.integ_step) = 1 := by
    rw [to_int_of_quotient _ 7 4 ht hi, f32_round_seven_quarters, cpp_int_seven_quarters]
  have ht2 : wide_theta_input.theta = ⟨4294967296⟩ := rfl
  have hi2 : wide_theta_input.integ_step = ⟨1⟩ := rfl
  have hz2 : wide_theta_input.z_tau = [⟨1 / 2⟩, ⟨1 / 4⟩] := rfl
  have hsteps2 : to_int (wide_theta_input.theta / wide_theta_input.integ_step) = -2 ^ 31 := by
    rw [to_int_of_quotient _ 4294967296 1 ht2 hi2, div_one, f32_round_two_pow_32,
      cpp_int_two_pow_32]
  have hr2 : round ((4294967296 : ℚ) / 1) = 4294967296 := by
    rw [div_one]
    exact round_natCast 4294967296
  have hd3 : short_delay_ieee.init_delay.theta = ⟨1⟩ := rfl
  have hi3 : short_delay_ieee.init_delay.integ_step = ⟨1⟩ := rfl
  have hz3 : short_delay_ieee.init_delay.z_tau = [] := by
    rw [init_delay_of_quotient short_delay_ieee (1 / 2) 1 rfl rfl, div_one, f32_round_half,
      cpp_int_of_nonneg (by norm_num) (by norm_num)]
    norm_num
  have hsteps3 :
      (to_int (short_delay_ieee.init_delay.theta / short_delay_ieee.init_delay.integ_step)).toNat
        = 0 + 1 := by
    rw [to_int_of_quotient _ 1 1 hd3 hi3, div_one, f32_round_one,
      cpp_int_of_nonneg (by norm_num) (by norm_num)]
    norm_num
  refine ⟨?_, ?_, ?_, ?_, ?_, ?_, ?_, ?_, ?_, ?_, hz3, ?_, ?_, ?_, ?_, ?_⟩
  · rw [ht]; norm_num
  · rw [hi]; norm_num
  · rw [hn]; rfl
  · rw [ht, hi]; exact round_seven_quarters
  · rw [ieee_div_val, ht, hi, f32_round_seven_quarters]; exact round_seven_quarters
  · have h := integrate_noise_consumed (fun x => x) (truncated_theta_input.vtable (fun x => x))
      truncated_theta_input.todde_reservoir (fun i => (⟨i⟩ : ieee_value)) [⟨1⟩] [⟨1⟩]
      (by rw [hn]; decide) (by rw [hn]; rfl) (by rw [hz]; simp)
    rw [hsteps] at h
    rw [h]
    simp
  · obtain ⟨zs, RC1, gen1, hrun, _, _, _, _, hgen⟩ :=
      run_steps_spec (fun x => x) (truncated_theta_input.vtable (fun x => x))
        (schedule 2 [⟨1⟩] [⟨1⟩]) truncated_theta_input.todde_reservoir
        (fun i => (⟨i⟩ : ieee_value)) (by rw [hz]; simp)
    rw [hrun, hgen]
    simp [schedule, node_schedule]
  · rw [hd3]; norm_num
  · rw [hi3]; norm_num
  · rfl
  · exact integrate_of_empty_line _ _ _ _ ⟨1⟩ ⟨1⟩ [] [] 0 0 hz3 hsteps3 rfl
  · rw [ht2]; norm_num
  · rw [hi2]; norm_num
  · rw [ht2, hi2]; exact hr2
  · have h := integrate_noise_consumed (fun x => x) (wide_theta_input.vtable (fun x => x))
      wide_theta_input.todde_reservoir (fun i => (⟨i⟩ : ieee_value)) [⟨1⟩] [⟨1⟩]
      (by decide) rfl (by rw [hz2]; simp)
    rw [hsteps2] at h
    rw [h]
    simp

/-- C5 (amended): in binary32, for a model with `theta > 0`, `integ_step > 0`, a `float`
quotient `theta / integ_step` below `2^31` and a non-empty delay line, an input sequence of length
`L` and a mask of length `num_nodes`, `integrate_dde_reservoir` returns, and what it does is
`L * num_nodes * steps` consecutive calls of `euler_maruyama`, where
`steps = int(theta / integ_step)` is the integer part of the `float` quotient (the exact quotient
rounded to binary32, then truncated, not rounded to nearest): call number
`(k * num_nodes + n) * steps + i` (for `i < steps`) has as input the `double` product
`mask[n] * u[k]` converted to `float`, and the returned entry `[k][n]` is `readout()` right after
the first `(k * num_nodes + n + 1) * steps` calls. -/
theorem integrate_schedule (sqrt : ieee_value → ieee_value) (vt : vtable ieee_value)
    (RC : dde_reservoir ieee_value) (gen : noise_gen ieee_value) (u_t mask : List ieee_value)
    (htheta : 0 < RC.theta.val) (hstep : 0 < RC.integ_step.val)
    (hrange : f32_round (RC.theta.val / RC.integ_step.val) < 2 ^ 31)
    (hmask : (mask.length : Int) = RC.num_nodes) (hne : RC.z_tau ≠ []) :
    ∃ zs S RC1 gen1,
      integrate_dde_reservoir sqrt vt RC gen u_t mask = some (S, RC1, gen1) ∧
      (to_int (RC.theta / RC.integ_step)).toNat = float_steps RC ∧
      run_steps sqrt vt (schedule (float_steps RC) mask u_t) RC gen = some (zs, RC1, gen1) ∧
      (schedule (float_steps RC) mask u_t).length
        = u_t.length * mask.length * float_steps RC ∧
      (gen1 = fun i => gen (u_t.length * mask.length * float_steps RC + i)) ∧
      (∀ k n i u m, u_t[k]? = some u → mask[n]? = some m → i < float_steps RC →
        (schedule (float_steps RC) mask u_t)[(k * mask.length + n) * float_steps RC + i]?
          = some (to_float (double_mul m u))) ∧
      (∀ k n, k < u_t.length → n < mask.length → ∃ zs2 RC2 gen2,
        run_steps sqrt vt
            ((schedule (float_steps RC) mask u_t).take
              ((k * mask.length + n + 1) * float_steps RC))
            RC gen
          = some (zs2, RC2, gen2) ∧
        mat.entry S k n = some (vt.readout RC2)) := by
  have hsteps := float_steps_eq RC htheta hstep hrange
  have hnodes : 0 ≤ RC.num_nodes := by rw [← hmask]; exact Int.natCast_nonneg _
  have hN : RC.num_nodes.toNat = mask.length := by omega
  obtain ⟨zs, S, RC1, gen1, hint, hrun, _, _, hval⟩ :=
    integrate_spec sqrt vt RC gen u_t mask hnodes (by omega) hne
  rw [hsteps, hN, List.take_length] at hrun
  have hlen : (schedule (float_steps RC) mask u_t).length
      = u_t.length * mask.length * float_steps RC := by
    rw [schedule_length]
    ring
  refine ⟨zs, S, RC1, gen1, hint, hsteps, hrun, hlen, ?_, ?_, ?_⟩
  · obtain ⟨zs3, RC3, gen3, hrun3, _, _, _, _, hgen⟩ :=
      run_steps_spec sqrt vt (schedule (float_steps RC) mask u_t) RC gen hne
    rw [hrun] at hrun3
    simp only [Option.some.injEq, Prod.mk.injEq] at hrun3
    rw [hrun3.2.2, hgen, hlen]
  · intro k n i u m hk hn hi
    exact schedule_get _ mask n i m hn hi u_t k u hk
  · intro k n hk hn
    obtain ⟨zs2, RC2, gen2, hrun2, hread⟩ :=
      hval k n (u_t[k]) (List.getElem?_eq_getElem hk) (by omega)
    rw [hsteps, hN, List.take_length] at hrun2
    exact ⟨zs2, RC2, gen2, hrun2, hread⟩

theorem integrate_schedule_witness :
    ∃ zs S RC1 gen1,
      integrate_dde_reservoir (fun x => x) (two_node_ieee.vtable (fun x => x))
        two_node_ieee.todde_reservoir (fun _ => ⟨0⟩) [⟨1⟩, ⟨2⟩] [⟨1 / 2⟩, ⟨-1 / 2⟩]
        = some (S, RC1, gen1) ∧
      (to_int (two_node_ieee.theta / two_node_ieee.integ_step)).toNat
        = float_steps two_node_ieee.todde_reservoir ∧
      run_steps (fun x => x) (two_node_ieee.vtable (fun x => x))
        (schedule (float_steps two_node_ieee.todde_reservoir) [⟨1 / 2⟩, ⟨-1 / 2⟩] [⟨1⟩, ⟨2⟩])
        two_node_ieee.todde_reservoir (fun _ => ⟨0⟩) = some (zs, RC1, gen1) ∧
      (schedule (float_steps two_node_ieee.todde_reservoir) [⟨1 / 2⟩, ⟨-1 / 2⟩]
          [(⟨1⟩ : ieee_value), ⟨2⟩]).length
        = [(⟨1⟩ : ieee_value), ⟨2⟩].length * [(⟨1 / 2⟩ : ieee_value), ⟨-1 / 2⟩].length
          * float_steps two_node_ieee.todde_reservoir :=
  match integrate_schedule (fun x => x) (two_node_ieee.vtable (fun x => x))
      two_node_ieee.todde_reservoir (fun _ => ⟨0⟩) [⟨1⟩, ⟨2⟩] [⟨1 / 2⟩, ⟨-1 / 2⟩]
      (by show (0 : ℚ) < 3; norm_num) (by show (0 : ℚ) < 1; norm_num)
      (by
        show f32_round ((3 : ℚ) / 1) < 2 ^ 31
        rw [div_one, f32_round_three]
        norm_num)
      (by decide) (by simp [two_node_ieee]) with
  | ⟨zs, S, RC1, gen1, h1, h2, h3, h4, _⟩ => ⟨zs, S, RC1, gen1, h1, h2, h3, h4⟩

end binary32_steps


end IkedaRC

namespace IkedaRC

section binary32_examples

open float_arith

theorem rne_of_lt_half {x : ℚ} (f : Int) (h1 : (f : ℚ) ≤ x) (h2 : x < f + 1 / 2) :
    rne x = f := by
  have hf : Int.floor x = f := by
    rw [Int.floor_eq_iff]
    exact ⟨h1, by linarith⟩
  unfold rne
  rw [hf, if_pos (by linarith)]

theorem rne_of_gt_half {x : ℚ} (f : Int) (h1 : (f : ℚ) + 1 / 2 < x) (h2 : x < f + 1) :
    rne x = f + 1 := by
  have hf : Int.floor x = f := by
    rw [Int.floor_eq_iff]
    exact ⟨by linarith, h2⟩
  unfold rne
  rw [hf, if_neg (by linarith), if_pos (by linarith)]

theorem f32_round_down {x : ℚ} (e f : Int) (he : -149 ≤ e - 23) (h1 : 2 ^ e ≤ x)
    (h2 : x < 2 ^ (e + 1)) (h3 : (f : ℚ) ≤ x / 2 ^ (e - 23))
    (h4 : x / 2 ^ (e - 23) < f + 1 / 2) : f32_round x = f * 2 ^ (e - 23) := by
  have h := fp_round_of_pos_binade 24 (-149) h1 h2
  have hmax : max (e - (((24 : Nat) : Int) - 1)) (-149) = e - 23 := by
    rw [max_eq_left (by norm_num; omega)]
    norm_num
  rw [hmax, rne_of_lt_half f h3 h4] at h
  exact h

theorem f32_round_up {x : ℚ} (e f : Int) (he : -149 ≤ e - 23) (h1 : 2 ^ e ≤ x)
    (h2 : x < 2 ^ (e + 1)) (h3 : (f : ℚ) + 1 / 2 < x / 2 ^ (e - 23))
    (h4 : x / 2 ^ (e - 23) < f + 1) : f32_round x = (f + 1 : Int) * 2 ^ (e - 23) := by
  have h := fp_round_of_pos_binade 24 (-149) h1 h2
  have hmax : max (e - (((24 : Nat) : Int) - 1)) (-149) = e - 23 := by
    rw [max_eq_left (by norm_num; omega)]
    norm_num
  rw [hmax, rne_of_gt_half f h3 h4] at h
  exact h

theorem f32_round_eighty : f32_round 80 = 80 := by
  refine fp_round_exact_pos 24 (-149) 6 (5 * 2 ^ 21) ?_ ?_ ?_ <;> norm_num

theorem f32_round_hundredth : f32_round (1 / 100) = 5368709 / 536870912 := by
  rw [f32_round_down (-7) 10737418 (by norm_num) (by norm_num) (by norm_num) (by norm_num)
    (by norm_num)]
  norm_num

theorem f32_round_seven_fifths : f32_round (7 / 5) = 11744051 / 8388608 := by
  rw [f32_round_down 0 11744051 (by norm_num) (by norm_num) (by norm_num) (by norm_num)
    (by norm_num)]
  norm_num

/-- In binary32 the quotient `80.f / 0.1f` converts to `800` (the number of delay-line entries
that `init_delay()` builds for `delay = 80`, `integ_step = 0.1f`), although the exact quotient
of the two `float` values has integer part `799`. -/
theorem to_int_eighty_by_tenth :
    to_int ((lit 80 : ieee_value) / lit 0.1) = 800 ∧
    Int.floor ((lit 80 : ieee_value).val / (lit 0.1 : ieee_value).val) = 799 := by
  have h10 : (0.1 : ℚ) = 1 / 10 := by norm_num
  have hq : f32_round (80 / (13421773 / 134217728)) = 800 := by
    rw [f32_round_up 9 13107199 (by norm_num) (by norm_num) (by norm_num) (by norm_num)
      (by norm_num)]
    norm_num
  constructor
  · rw [ieee_to_int, ieee_div_val, ieee_lit_val, ieee_lit_val, h10, f32_round_eighty,
      f32_round_tenth, hq, cpp_int_of_nonneg (by norm_num) (by norm_num)]
    norm_num
  · rw [ieee_lit_val, ieee_lit_val, h10, f32_round_eighty, f32_round_tenth, Int.floor_eq_iff]
    norm_num

/-- In binary32 the quotient `1.4f / 0.1f` converts to `14` (the number of calls per node for
`theta = 1.4f`, `integ_step = 0.1f`), although the exact quotient of the two `float` values has
integer part `13`. -/
theorem to_int_seven_fifths_by_tenth :
    to_int ((lit 1.4 : ieee_value) / lit 0.1) = 14 ∧
    Int.floor ((lit 1.4 : ieee_value).val / (lit 0.1 : ieee_value).val) = 13 := by
  have h10 : (0.1 : ℚ) = 1 / 10 := by norm_num
  have h14 : (1.4 : ℚ) = 7 / 5 := by norm_num
  have hq : f32_round (11744051 / 8388608 / (13421773 / 134217728)) = 14 := by
    rw [f32_round_up 3 14680063 (by norm_num) (by norm_num) (by norm_num) (by norm_num)
      (by norm_num)]
    norm_num
  constructor
  · rw [ieee_to_int, ieee_div_val, ieee_lit_val, ieee_lit_val, h10, h14, f32_round_seven_fifths,
      f32_round_tenth, hq, cpp_int_of_nonneg (by norm_num) (by norm_num)]
    norm_num
  · rw [ieee_lit_val, ieee_lit_val, h10, h14, f32_round_seven_fifths, f32_round_tenth,
      Int.floor_eq_iff]
    norm_num

/-- With the default parameters `delay = 80`, `theta = 1.4f`, `integ_step = 0.01` the binary32
conversions give `8000` delay-line entries and `140` calls per node. -/
theorem default_step_counts :
    to_int ((lit 80 : ieee_value) / lit 0.01) = 8000 ∧
    to_int ((lit 1.4 : ieee_value) / lit 0.01) = 140 := by
  have h100 : (0.01 : ℚ) = 1 / 100 := by norm_num
  have h14 : (1.4 : ℚ) = 7 / 5 := by norm_num
  have hq1 : f32_round (80 / (5368709 / 536870912)) = 8000 := by
    rw [f32_round_down 12 16384000 (by norm_num) (by norm_num) (by norm_num) (by norm_num)
      (by norm_num)]
    norm_num
  have hq2 : f32_round (11744051 / 8388608 / (5368709 / 536870912)) = 140 := by
    rw [f32_round_down 7 9175040 (by norm_num) (by norm_num) (by norm_num) (by norm_num)
      (by norm_num)]
    norm_num
  constructor
  · rw [ieee_to_int, ieee_div_val, ieee_lit_val, ieee_lit_val, h100, f32_round_eighty,
      f32_round_hundredth, hq1, cpp_int_of_nonneg (by norm_num) (by norm_num)]
    norm_num
  · rw [ieee_to_int, ieee_div_val, ieee_lit_val, ieee_lit_val, h100, h14, f32_round_seven_fifths,
      f32_round_hundredth, hq2, cpp_int_of_nonneg (by norm_num) (by norm_num)]
    norm_num

theorem f32_round_down_abs {x : ℚ} (e f : Int) (he : -149 ≤ e - 23) (h1 : 2 ^ e ≤ |x|)
    (h2 : |x| < 2 ^ (e + 1)) (h3 : (f : ℚ) ≤ x / 2 ^ (e - 23))
    (h4 : x / 2 ^ (e - 23) < f + 1 / 2) : f32_round x = f * 2 ^ (e - 23) := by
  have h := fp_round_of_binade 24 (-149) h1 h2
  have hmax : max (e - (((24 : Nat) : Int) - 1)) (-149) = e - 23 := by
    rw [max_eq_left (by norm_num; omega)]
    norm_num
  rw [hmax, rne_of_lt_half f h3 h4] at h
  exact h

theorem f32_round_exact_abs {x : ℚ} (e m : Int) (he : -149 ≤ e - 23) (h1 : 2 ^ e ≤ |x|)
    (h2 : |x| < 2 ^ (e + 1)) (hm : x = (m : ℚ) * 2 ^ (e - 23)) : f32_round x = x := by
  have hmax : max (e - (((24 : Nat) : Int) - 1)) (-149) = e - 23 := by
    rw [max_eq_left (by norm_num; omega)]
    norm_num
  exact fp_round_exact 24 (-149) e m h1 h2 (by rw [hmax]; exact hm)

/-- Absorption in binary32: with gain `0`, loss coefficient `2^-20` and `integ_step = 0.01`, the
state `0.1f` built by `init_delay()` has a non-zero derivative, yet `euler_maruyama(0)` leaves
it unchanged, because `z + integ_step * d` rounds back to `z`. -/
theorem absorbed_derivative_example :
    (absorbing_ieee.rest_derivative (fun x => x) (lit 0.1)).val = -13421773 / 140737488355328 ∧
    absorbing_ieee.todde_reservoir.euler_maruyama (fun x => x)
        (absorbing_ieee.vtable (fun x => x)) (fun _ => ⟨1⟩) (lit 0)
      = some (absorbing_ieee.todde_reservoir, fun i => (fun _ => (⟨1⟩ : ieee_value)) (i + 1)) := by
  have h10 : (0.1 : ℚ) = 1 / 10 := by norm_num
  have h100 : (0.01 : ℚ) = 1 / 100 := by norm_num
  have hz : (lit 0.1 : ieee_value).val = 13421773 / 134217728 := by
    rw [ieee_lit_val, h10, f32_round_tenth]
  have hh : absorbing_ieee.integ_step.val = 5368709 / 536870912 := by
    show (lit 0.01 : ieee_value).val = _
    rw [ieee_lit_val, h100, f32_round_hundredth]
  have ht2 : f32_round (-13421773 / 140737488355328) = -13421773 / 140737488355328 :=
    f32_round_exact_abs (-24) (-13421773) (by norm_num) (by norm_num [abs_of_neg])
      (by norm_num [abs_of_neg]) (by norm_num)
  have ht : f32_round (-(1 / 1048576) * (13421773 / 134217728))
      = -13421773 / 140737488355328 := by
    have he : (-(1 / 1048576) * (13421773 / 134217728) : ℚ) = -13421773 / 140737488355328 := by
      norm_num
    rw [he, ht2]
  have hd : (absorbing_ieee.rest_derivative (fun x => x) (lit 0.1)).val
      = -13421773 / 140737488355328 := by
    show f32_round (f32_round (-(1 / 1048576) * (lit 0.1 : ieee_value).val)
      + f32_round (f32_round (0 * _) * _)) = _
    rw [hz, ht, zero_mul, f32_round_zero, zero_mul, f32_round_zero, add_zero, ht2]
  have hp : f32_round (5368709 / 536870912 * (-13421773 / 140737488355328))
      = -8589935 / 9007199254740992 := by
    rw [f32_round_down_abs (-30) (-8589935) (by norm_num) (by norm_num [abs_of_neg])
      (by norm_num [abs_of_neg]) (by norm_num) (by norm_num)]
    norm_num
  have hw : f32_round (13421773 / 134217728 + -8589935 / 9007199254740992)
      = 13421773 / 134217728 := by
    rw [f32_round_up (-4) 13421772 (by norm_num) (by norm_num) (by norm_num) (by norm_num)
      (by norm_num)]
    norm_num
  have hwz : f32_round (13421773 / 134217728 + 0) = 13421773 / 134217728 := by
    rw [add_zero]
    exact f32_round_exact_abs (-4) 13421773 (by norm_num) (by norm_num [abs_of_pos])
      (by norm_num [abs_of_pos]) (by norm_num)
  refine ⟨hd, ?_⟩
  rw [euler_maruyama_rest (fun x => x) (absorbing_ieee.vtable (fun x => x))
    absorbing_ieee.todde_reservoir (fun _ => ⟨1⟩) (lit 0) (lit 0.1) 2 rfl rfl]
  apply ieee_ext
  show f32_round (f32_round ((lit 0.1 : ieee_value).val
      + f32_round (absorbing_ieee.integ_step.val
        * (absorbing_ieee.rest_derivative (fun x => x) (lit 0.1)).val))
    + f32_round (f32_round (0 * 1) * absorbing_ieee.integ_step.val)) = _
  rw [hz, hh, hd, hp, hw, zero_mul, f32_round_zero, zero_mul, f32_round_zero, hwz]

end binary32_examples

end IkedaRC
